import Mathlib

/-!
# Apple stock notification: a verification development of `apple.go`

The program polls a retail availability endpoint, classifies each pickup
quote with a textual heuristic and sends one notification per in-stock
record and notify endpoint.

Go strings are byte sequences; they are embedded as lists of byte values
(`Nat`, each below 256).  Effects (HTTP calls, log lines) are embedded as an
explicit trace of events, the outcomes of the external calls being supplied by
an environment.
-/

namespace AppleStock

/-! ## Strings -/

/-- A Go string: an immutable sequence of bytes (values 0..255). -/
abbrev GoString := List Nat

/-- UTF-8 encoding of one code point, as Go source text encodes the characters
of a string literal. -/
def utf8 (c : Char) : List Nat :=
  let n := c.toNat
  if n < 0x80 then [n]
  else if n < 0x800 then [0xC0 + n / 64, 0x80 + n % 64]
  else if n < 0x10000 then [0xE0 + n / 4096, 0x80 + n / 64 % 64, 0x80 + n % 64]
  else [0xF0 + n / 262144, 0x80 + n / 4096 % 64, 0x80 + n / 64 % 64, 0x80 + n % 64]

/-- The bytes of a string literal. -/
def lit (s : String) : GoString := s.data.flatMap utf8

/-- Go `strings.HasPrefix`. -/
def HasPrefix (s pre : GoString) : Bool := pre.isPrefixOf s

/-- Go `strings.Index`: the byte index of the first occurrence of `substr` in
`s` at or after the current position `i`, or `-1` when there is none. -/
def indexFrom (substr : GoString) : GoString → Nat → Int
  | [], i => if substr = [] then (i : Int) else -1
  | c :: t, i => if HasPrefix (c :: t) substr then (i : Int) else indexFrom substr t (i + 1)

/-- Go `strings.Index`. -/
def Index (s substr : GoString) : Int := indexFrom substr s 0

/-- Go `strings.Contains`: `Index(s, substr) >= 0`. -/
def Contains (s substr : GoString) : Bool := decide (0 ≤ Index s substr)

/-- The mathematical notion the classifier is specified with: `sub` occurs in
`s` as a contiguous block. -/
def IsSubstring (sub s : GoString) : Prop := ∃ pre post, s = pre ++ sub ++ post

/-! ## The stock classifier (`hasStockOffline`, apple.go:119-121) -/

/-- `hasStockOffline`: the quote contains "vailable" and does not contain
"Currently unavailable". -/
def hasStockOffline (s : GoString) : Bool :=
  Contains s (lit "vailable") && !Contains s (lit "Currently unavailable")

/-! ## URL escaping (Go `net/url`) -/

/-- The two escaping modes of `net/url` that matter here. -/
inductive encoding
  | encodePathSegment
  | encodeQueryComponent
  deriving DecidableEq, Repr

/-- Go `net/url.shouldEscape` for the modes `encodePathSegment` and
`encodeQueryComponent`: letters, digits and `-_.~` are never escaped; of the
reserved characters `$&+,/:;=?@` a path segment escapes `/ ; , ?` and a query
component escapes all; every other byte is escaped. -/
def shouldEscape (c : Nat) (mode : encoding) : Bool :=
  if (97 ≤ c ∧ c ≤ 122) ∨ (65 ≤ c ∧ c ≤ 90) ∨ (48 ≤ c ∧ c ≤ 57) then false
  else if c = 45 ∨ c = 95 ∨ c = 46 ∨ c = 126 then false
  else if c = 36 ∨ c = 38 ∨ c = 43 ∨ c = 44 ∨ c = 47 ∨ c = 58 ∨ c = 59 ∨ c = 61 ∨ c = 63
      ∨ c = 64 then
    match mode with
    | .encodePathSegment => decide (c = 47 ∨ c = 59 ∨ c = 44 ∨ c = 63)
    | .encodeQueryComponent => true
  else true

/-- The digit table `upperhex = "0123456789ABCDEF"` indexed by a nibble. -/
def upperhex (n : Nat) : Nat := if n % 16 < 10 then 48 + n % 16 else 55 + n % 16

/-- What `net/url.escape` writes for one byte: a space in a query component
becomes `+`, a byte to escape becomes `%XX` with `upperhex[c>>4]` and
`upperhex[c&15]`, any other byte is copied. -/
def escapeByte (c : Nat) (mode : encoding) : GoString :=
  if c = 32 ∧ mode = encoding.encodeQueryComponent then [43]
  else if shouldEscape c mode then [37, upperhex (c / 16), upperhex (c % 16)]
  else [c]

/-- Go `net/url.escape`: the bytes of the string, each escaped in turn. -/
def escape (s : GoString) (mode : encoding) : GoString :=
  s.flatMap fun c => escapeByte c mode

/-- Go `url.PathEscape`. -/
def PathEscape (s : GoString) : GoString := escape s encoding.encodePathSegment

/-- Go `url.QueryEscape`. -/
def QueryEscape (s : GoString) : GoString := escape s encoding.encodeQueryComponent

/-! ## Data model -/

/-- Modelled from the spec: the declaration of `Message` is not among the
sources; section 3 gives it as a title and a content, both strings. -/
structure Message where
  Title : GoString
  Content : GoString
  deriving DecidableEq, Repr

/-- Modelled from the spec: the declaration of `ConfigOption` is not among the
sources; section 3 gives a location, the ordered model list, the search
interval in seconds and the notify endpoints. -/
structure ConfigOption where
  Location : GoString
  Models : List GoString
  SearchInterval : Nat
  NotifyUrl : List GoString
  deriving DecidableEq, Repr

/-- Modelled from the spec: one parts-availability record (sections 3 and 6),
fields `storePickupProductTitle` and `pickupSearchQuote`. -/
structure PartAvailability where
  StorePickupProductTitle : GoString
  PickupSearchQuote : GoString
  deriving DecidableEq, Repr

/-- Modelled from the spec: one store (sections 3 and 6), fields `storeName`
and `partsAvailability`. -/
structure Store where
  StoreName : GoString
  PartsAvailability : List PartAvailability
  deriving DecidableEq, Repr

/-- Modelled from the spec: the innermost wrapper of the response, the field
path `Body.Content.PickupMessage.Stores` read at apple.go:81. -/
structure PickupMessage where
  Stores : List Store
  deriving DecidableEq, Repr

/-- Modelled from the spec: wrapper `content` of the response (section 6). -/
structure Content where
  PickupMessage : PickupMessage
  deriving DecidableEq, Repr

/-- Modelled from the spec: wrapper `body` of the response (section 6). -/
structure Body where
  Content : Content
  deriving DecidableEq, Repr

/-- Modelled from the spec: the decoded response; its declaration is not among
the sources. -/
structure SearchResponse where
  Body : Body
  deriving DecidableEq, Repr

/-- A Go `error` value, represented by its message text. -/
abbrev GoError := GoString

/-- An HTTP response as far as the program reads it: what `ioutil.ReadAll`
yields on its body. -/
structure Response where
  Body : Except GoError GoString

/-- What the program does to the outside world, in order. -/
inductive Event
  | log (msg : GoString)
  | newRequest (url : GoString)
  | clientDo (req : Option GoString)
  | readAll
  | jsonUnmarshal (data : GoString)
  | clientGet (url : GoString)
  deriving DecidableEq, Repr

/-- The outcomes of the external calls of one poll cycle: building the request
for a URL, performing it, decoding a body, and the `k`-th notification GET. -/
structure Env where
  NewRequest : GoString → Option GoError
  Do : GoString → Except GoError Response
  Unmarshal : GoString → Except GoError SearchResponse
  Get : Nat → GoString → Option GoError

/-- How a call ends: by returning, or by a run-time panic. -/
inductive Outcome
  | returned
  | panicked
  deriving DecidableEq, Repr

/-- One run of a procedure: its events and how it ended. -/
structure Run where
  trace : List Event
  outcome : Outcome
  deriving DecidableEq, Repr

/-! ## `sendNotificationToBarkApp` (apple.go:106-117) -/

/-- The URL of apple.go:109,
`fmt.Sprintf("%v/%v/%v?sound=minuet", notifyUrl, msg.Title, msg.Content)`. -/
def barkUrl (notifyUrl : GoString) (msg : Message) : GoString :=
  notifyUrl ++ lit "/" ++ msg.Title ++ lit "/" ++ msg.Content ++ lit "?sound=minuet"

/-- The state of the notification loops: the events so far and the number of
GETs issued so far. -/
structure SendState where
  trace : List Event
  sends : Nat
  deriving DecidableEq, Repr

/-- The body of the inner loop (apple.go:109-114): issue the GET, log a failure,
go on. -/
def sendOne (env : Env) (msg : Message) (st : SendState) (notifyUrl : GoString) : SendState :=
  let url := barkUrl notifyUrl msg
  match env.Get st.sends url with
  | some err =>
    { trace := st.trace ++ [Event.clientGet url,
        Event.log (lit "[E] send stock message failed. err:" ++ err)],
      sends := st.sends + 1 }
  | none => { trace := st.trace ++ [Event.clientGet url], sends := st.sends + 1 }

/-- The two nested loops of `sendNotificationToBarkApp`, from a given state. -/
def sendLoop (env : Env) (cfg : ConfigOption) (messages : List Message) (st : SendState) :
    SendState :=
  messages.foldl (fun st msg => cfg.NotifyUrl.foldl (sendOne env msg) st) st

/-- The events of `sendNotificationToBarkApp`. -/
def sendNotificationToBarkApp (env : Env) (cfg : ConfigOption) (messages : List Message) :
    List Event :=
  (sendLoop env cfg messages { trace := [], sends := 0 }).trace

/-- The URLs of the GETs in a trace, in order. -/
def getUrls (t : List Event) : List GoString :=
  t.filterMap fun e => match e with
    | Event.clientGet url => some url
    | _ => none

/-! ## `url.Values` and `makeUrl` (apple.go:141-155) -/

/-- The constant `SearchUrl` (apple.go:16). -/
def SearchUrl : GoString := lit "https://www.apple.com/us-hed/shop/fulfillment-messages"

/-- Go `url.Values`, a `map[string][]string`: an association list whose keys
are pairwise distinct.  The order of the entries stands for the map's iteration
order, on which nothing below depends. -/
abbrev Values := List (GoString × List GoString)

/-- Go `Values.Add`: append the value to the list stored under the key. -/
def Values.Add : Values → GoString → GoString → Values
  | [], key, value => [(key, [value])]
  | (k, vs) :: rest, key, value =>
    if k = key then (k, vs ++ [value]) :: rest else (k, vs) :: Values.Add rest key value

/-- The map access `v[k]`: the stored list, or nil. -/
def Values.at : Values → GoString → List GoString
  | [], _ => []
  | (k, vs) :: rest, key => if k = key then vs else Values.at rest key

/-- Go's `<` on strings: lexicographic on bytes. -/
def strLess : GoString → GoString → Bool
  | [], [] => false
  | [], _ :: _ => true
  | _ :: _, [] => false
  | a :: s, b :: t => decide (a < b) || (decide (a = b) && strLess s t)

/-- Insert a string into a sorted list, before the first element that is
greater. -/
def insertSorted (x : GoString) : List GoString → List GoString
  | [] => [x]
  | y :: ys => if strLess y x then y :: insertSorted x ys else x :: y :: ys

/-- Go `slices.Sort` on strings (the result of sorting is determined by the
multiset of the elements, the order being total). -/
def sortStrings : List GoString → List GoString
  | [] => []
  | x :: xs => insertSorted x (sortStrings xs)

/-- The inner loop of `Values.Encode`: write `key=value` for each value, with
a `&` first when the buffer is not empty. -/
def encodeKey (keyEscaped : GoString) (buf : GoString) (vs : List GoString) : GoString :=
  vs.foldl (fun buf v =>
    (if 0 < buf.length then buf ++ [38] else buf) ++ keyEscaped ++ [61] ++ QueryEscape v) buf

/-- Go `Values.Encode`: the keys are sorted; each `key=value` is written with
both sides query-escaped. -/
def Values.Encode (v : Values) : GoString :=
  if v.length = 0 then []
  else (sortStrings (v.map Prod.fst)).foldl
    (fun buf k => encodeKey (QueryEscape k) buf (Values.at v k)) []

/-- The digit loop of Go's integer formatting: the digits are produced from
the least significant one, each put in front of those already produced, until
the value is below ten. -/
def itoaLoop : Nat → Nat → GoString → GoString
  | 0, _, acc => acc
  | fuel + 1, u, acc =>
    if 10 ≤ u then itoaLoop fuel (u / 10) ((48 + u % 10) :: acc) else (48 + u) :: acc

/-- The verb `%d` of `fmt.Sprintf` on a non-negative `int` (a loop index):
its decimal digits. -/
def itoa (i : Nat) : GoString := itoaLoop (i + 1) i []

/-- The loop of apple.go:148-151 from index `i`: one `Add` per model. -/
def addParts : Values → Nat → List GoString → Values
  | values, _, [] => values
  | values, i, model :: rest =>
    addParts (Values.Add values (lit "parts." ++ itoa i) model) (i + 1) rest

/-- The map `values` that `makeUrl` has built before it encodes it. -/
def makeValues (cfg : ConfigOption) : Values :=
  let values : Values := []
  let values := Values.Add values (lit "mt") (lit "regular")
  let values := Values.Add values (lit "pl") (lit "true")
  let values := Values.Add values (lit "location") cfg.Location
  addParts values 0 cfg.Models

/-- `makeUrl`: `fmt.Sprintf("%v?%v", SearchUrl, query)`. -/
def makeUrl (cfg : ConfigOption) : GoString :=
  let query := Values.Encode (makeValues cfg)
  SearchUrl ++ lit "?" ++ query

/-! ## `unMarshalResp` (apple.go:123-139) -/

/-- `unMarshalResp`, for a given decoder standing for `json.Unmarshal` into a
fresh `SearchResponse`: the result and the events. -/
def unMarshalResp (unmarshal : GoString → Except GoError SearchResponse) (resp : Response) :
    Except GoError SearchResponse × List Event :=
  match resp.Body with
  | .error err => (.error err, [Event.readAll, Event.log (lit "[E] read body failed. err:" ++ err)])
  | .ok data =>
    match unmarshal data with
    | .error err =>
      (.error err, [Event.readAll, Event.jsonUnmarshal data,
        Event.log (lit "[E] unmarshal body failed. data:" ++ data ++ lit ", err:" ++ err)])
    | .ok searchResponse => (.ok searchResponse, [Event.readAll, Event.jsonUnmarshal data])

/-! ## `ReqSearch` (apple.go:53-104) -/

/-- The message built at apple.go:94-97. -/
def mkMessage (store : Store) (info : PartAvailability) : Message :=
  { Title := info.StorePickupProductTitle,
    Content := lit "取货时间:" ++ info.PickupSearchQuote ++ lit " 地点:" ++ store.StoreName }

/-- The body of the inner loop (apple.go:85-99) on the pair of the messages and
the events so far: a record that is not in stock is logged and skipped, one
that is in stock appends its message. -/
def partStep (store : Store) (st : List Message × List Event) (info : PartAvailability) :
    List Message × List Event :=
  let iphoneModal := info.StorePickupProductTitle
  let pickTime := info.PickupSearchQuote
  let pickStore := store.StoreName
  if !hasStockOffline info.PickupSearchQuote then
    (st.1, st.2 ++ [Event.log (lit "[E] 型号:" ++ iphoneModal ++ lit " 地点:" ++ pickStore ++
      lit " " ++ pickTime)])
  else (st.1 ++ [mkMessage store info], st.2)

/-- The two nested loops of apple.go:80-101. -/
def collect (stores : List Store) : List Message × List Event :=
  stores.foldl (fun st store => store.PartsAvailability.foldl (partStep store) st) ([], [])

/-- One poll cycle.  When building the request fails the error is logged and,
there being no `return` at apple.go:62-64, `cli.Do` is called with the nil
request; `Client.Do` reads `req.URL` first, so this is a nil-pointer
dereference: the cycle ends in a panic. -/
def ReqSearch (env : Env) (cfg : ConfigOption) : Run :=
  let appleUrl := makeUrl cfg
  let t0 := [Event.log (lit "[I] 开始查询苹果接口. 查询位置:" ++ cfg.Location),
    Event.newRequest appleUrl]
  match env.NewRequest appleUrl with
  | some err =>
    { trace := t0 ++ [Event.log (lit "[E] new request failed. err:" ++ err), Event.clientDo none],
      outcome := Outcome.panicked }
  | none =>
    let t1 := t0 ++ [Event.clientDo (some appleUrl)]
    match env.Do appleUrl with
    | .error err =>
      { trace := t1 ++ [Event.log (lit "[E] do request failed. url:" ++ appleUrl ++
          lit ", err:" ++ err)],
        outcome := Outcome.returned }
    | .ok resp =>
      match unMarshalResp env.Unmarshal resp with
      | (.error err, t2) =>
        { trace := t1 ++ t2 ++ [Event.log (lit "[E] unMarshalResp failed. err:" ++ err)],
          outcome := Outcome.returned }
      | (.ok searchResponse, t2) =>
        let stores := searchResponse.Body.Content.PickupMessage.Stores
        let (messages, t3) := collect stores
        { trace := t1 ++ t2 ++ t3 ++ sendNotificationToBarkApp env cfg messages,
          outcome := Outcome.returned }

/-! ## Specification-side definitions -/

/-- The message list as the specification describes it: the stores in order,
in each store its records in order, the in-stock records only, each mapped to
its message. -/
def inStockMessages (stores : List Store) : List Message :=
  stores.flatMap fun store =>
    (store.PartsAvailability.filter fun info => hasStockOffline info.PickupSearchQuote).map
      fun info =>
        { Title := info.StorePickupProductTitle,
          Content := lit "取货时间:" ++ info.PickupSearchQuote ++ lit " 地点:" ++ store.StoreName }

/-- The log lines of the records that are not in stock, in order. -/
def notInStockLogs (stores : List Store) : List Event :=
  stores.flatMap fun store =>
    (store.PartsAvailability.filter fun info => !hasStockOffline info.PickupSearchQuote).map
      fun info =>
        Event.log (lit "[E] 型号:" ++ info.StorePickupProductTitle ++ lit " 地点:" ++
          store.StoreName ++ lit " " ++ info.PickupSearchQuote)

/-- The `key=value` texts the specification lists for the query string of
`makeUrl`: the two fixed parameters, the location, and one `parts.<i>` per
model, `i` its 0-based position. -/
def expectedQueryEntries (cfg : ConfigOption) : List GoString :=
  [lit "mt=regular", lit "pl=true", lit "location=" ++ QueryEscape cfg.Location]
    ++ cfg.Models.enum.map fun p => lit "parts." ++ itoa p.1 ++ lit "=" ++ QueryEscape p.2

/-! ## A sample poll cycle -/

/-- A sample configuration: one model, one notify endpoint. -/
def demoCfg : ConfigOption :=
  { Location := lit "10001", Models := [lit "MODEL_A"], SearchInterval := 60,
    NotifyUrl := [lit "http://n.example/push"] }

/-- A sample decoded response: one store with one record in stock and one
record not in stock. -/
def demoResponse : SearchResponse :=
  { Body := { Content := { PickupMessage := { Stores :=
      [{ StoreName := lit "Store5",
         PartsAvailability :=
          [{ StorePickupProductTitle := lit "iPhone 15",
             PickupSearchQuote := lit "Available, pick up today" },
           { StorePickupProductTitle := lit "iPhone 15 Pro",
             PickupSearchQuote := lit "Currently unavailable" }] }] } } } }

/-- A sample environment: the request succeeds, its body decodes to
`demoResponse`, every notification GET succeeds. -/
def demoEnv : Env :=
  { NewRequest := fun _ => none,
    Do := fun _ => .ok { Body := .ok (lit "(body)") },
    Unmarshal := fun _ => .ok demoResponse,
    Get := fun _ _ => none }

/-! ## JSON texts

Neither the declaration of `SearchResponse` with its field tags nor the decoder
(`json.Unmarshal`, of Go's standard library) is among the sources.  The decoder
is modelled from the specification, sections 4.3 and 6: it accepts the JSON
grammar of RFC 8259, ignores unknown fields, leaves absent fields at their zero
value and rejects a value of the wrong kind.  Where the specification is silent
the model follows `encoding/json`, except that the nesting limit of that
package (10000 levels) is not modelled. -/

/-- A JSON value.  A string and an object key hold the text between the
quotes, escapes unresolved; a number holds its text. -/
inductive JSON
  | null
  | bool (b : Bool)
  | number (text : GoString)
  | str (raw : GoString)
  | arr (items : List JSON)
  | obj (members : List (GoString × JSON))

/-- JSON whitespace: space, tab, line feed, carriage return. -/
def isWs (c : Nat) : Bool := decide (c = 32 ∨ c = 9 ∨ c = 10 ∨ c = 13)

/-- A decimal digit. -/
def isDigit (c : Nat) : Bool := decide (48 ≤ c ∧ c ≤ 57)

/-- A hexadecimal digit, of either case. -/
def isHex (c : Nat) : Bool :=
  decide ((48 ≤ c ∧ c ≤ 57) ∨ (97 ≤ c ∧ c ≤ 102) ∨ (65 ≤ c ∧ c ≤ 70))

/-- The characters that may follow a backslash, `u` apart: `"\\/bfnrt`. -/
def isSimpleEscape (c : Nat) : Bool :=
  decide (c = 34 ∨ c = 92 ∨ c = 47 ∨ c = 98 ∨ c = 102 ∨ c = 110 ∨ c = 114 ∨ c = 116)

/-- Drop leading whitespace. -/
def skipWs (s : List Nat) : List Nat := s.dropWhile isWs

/-- Scan a string from just after its opening quote: the text up to the
closing quote, and what follows that quote.  A control byte, a lone backslash
or an unknown escape make the string invalid. -/
def scanString : List Nat → Option (GoString × List Nat)
  | [] => none
  | c :: rest =>
    if c = 34 then some ([], rest)
    else if c = 92 then
      match rest with
      | [] => none
      | e :: rest1 =>
        if e = 117 then
          match rest1 with
          | h1 :: h2 :: h3 :: h4 :: rest2 =>
            if isHex h1 && isHex h2 && isHex h3 && isHex h4 then
              (scanString rest2).map fun p => (92 :: 117 :: h1 :: h2 :: h3 :: h4 :: p.1, p.2)
            else none
          | _ => none
        else if isSimpleEscape e then (scanString rest1).map fun p => (92 :: e :: p.1, p.2)
        else none
    else if c < 32 then none
    else (scanString rest).map fun p => (c :: p.1, p.2)

/-- The integer part of a number: `0`, or a non-zero digit and more digits. -/
def scanInt : List Nat → Option (GoString × List Nat)
  | [] => none
  | c :: r =>
    if c = 48 then some ([48], r)
    else if 49 ≤ c ∧ c ≤ 57 then some (c :: r.takeWhile isDigit, r.dropWhile isDigit)
    else none

/-- The optional fraction of a number: `.` and at least one digit. -/
def scanFrac : List Nat → Option (GoString × List Nat)
  | [] => some ([], [])
  | c :: r =>
    if c = 46 then
      if r.takeWhile isDigit = [] then none
      else some (46 :: r.takeWhile isDigit, r.dropWhile isDigit)
    else some ([], c :: r)

/-- The optional sign of an exponent. -/
def scanExpSign : List Nat → GoString × List Nat
  | [] => ([], [])
  | d :: r => if d = 43 ∨ d = 45 then ([d], r) else ([], d :: r)

/-- The optional exponent of a number: `e` or `E`, an optional sign and at
least one digit. -/
def scanExp : List Nat → Option (GoString × List Nat)
  | [] => some ([], [])
  | c :: r =>
    if c = 101 ∨ c = 69 then
      if (scanExpSign r).2.takeWhile isDigit = [] then none
      else some (c :: ((scanExpSign r).1 ++ (scanExpSign r).2.takeWhile isDigit),
        (scanExpSign r).2.dropWhile isDigit)
    else some ([], c :: r)

/-- The optional minus sign of a number. -/
def scanSign : List Nat → GoString × List Nat
  | [] => ([], [])
  | c :: r => if c = 45 then ([45], r) else ([], c :: r)

/-- Scan a number: its text and what follows. -/
def scanNumber (s : List Nat) : Option (GoString × List Nat) :=
  match scanInt (scanSign s).2 with
  | none => none
  | some (i, s2) =>
    match scanFrac s2 with
    | none => none
    | some (f, s3) =>
      match scanExp s3 with
      | none => none
      | some (e, s4) => some ((scanSign s).1 ++ i ++ f ++ e, s4)

mutual
/-- Parse one value at the head of the input (no leading whitespace): the
value and what follows it.  The fuel bounds the nesting depth. -/
def parseValue : Nat → List Nat → Option (JSON × List Nat)
  | 0, _ => none
  | fuel + 1, s =>
    match s with
    | [] => none
    | c :: r =>
      if c = 123 then
        match skipWs r with
        | [] => none
        | d :: r1 =>
          if d = 125 then some (JSON.obj [], r1)
          else (parseMembers fuel (d :: r1)).map fun p => (JSON.obj p.1, p.2)
      else if c = 91 then
        match skipWs r with
        | [] => none
        | d :: r1 =>
          if d = 93 then some (JSON.arr [], r1)
          else (parseElems fuel (d :: r1)).map fun p => (JSON.arr p.1, p.2)
      else if c = 34 then (scanString r).map fun p => (JSON.str p.1, p.2)
      else if c = 110 then
        if HasPrefix r (lit "ull") then some (JSON.null, r.drop 3) else none
      else if c = 116 then
        if HasPrefix r (lit "rue") then some (JSON.bool true, r.drop 3) else none
      else if c = 102 then
        if HasPrefix r (lit "alse") then some (JSON.bool false, r.drop 4) else none
      else if c = 45 ∨ isDigit c then
        (scanNumber (c :: r)).map fun p => (JSON.number p.1, p.2)
      else none
/-- Parse the elements of a non-empty array, from the first byte of an
element to the closing bracket. -/
def parseElems : Nat → List Nat → Option (List JSON × List Nat)
  | 0, _ => none
  | fuel + 1, s =>
    match parseValue fuel s with
    | none => none
    | some (j, r) =>
      match skipWs r with
      | [] => none
      | d :: r1 =>
        if d = 44 then (parseElems fuel (skipWs r1)).map fun p => (j :: p.1, p.2)
        else if d = 93 then some ([j], r1)
        else none
/-- Parse the members of a non-empty object, from the opening quote of a key
to the closing brace. -/
def parseMembers : Nat → List Nat → Option (List (GoString × JSON) × List Nat)
  | 0, _ => none
  | fuel + 1, s =>
    match s with
    | [] => none
    | q :: r =>
      if q = 34 then
        match scanString r with
        | none => none
        | some (key, r1) =>
          match skipWs r1 with
          | [] => none
          | d :: r2 =>
            if d = 58 then
              match parseValue fuel (skipWs r2) with
              | none => none
              | some (j, r3) =>
                match skipWs r3 with
                | [] => none
                | d1 :: r4 =>
                  if d1 = 44 then
                    (parseMembers fuel (skipWs r4)).map fun p => ((key, j) :: p.1, p.2)
                  else if d1 = 125 then some ([(key, j)], r4)
                  else none
            else none
      else none
end

/-- Modelled from the spec: the syntax check of the decoder, which is not
among the sources.  Parse a whole JSON text: one value, whitespace allowed
around it and nothing else. -/
def parseJSON (data : GoString) : Option JSON :=
  match parseValue (data.length + 1) (skipWs data) with
  | none => none
  | some (j, r) => if skipWs r = [] then some j else none

/-! ## The JSON grammar (RFC 8259), independently of the parser -/

/-- A run of whitespace. -/
def IsWs (w : List Nat) : Prop := ∀ c ∈ w, isWs c = true

/-- A non-empty run of digits. -/
def IsDigits (ds : List Nat) : Prop := ds ≠ [] ∧ ∀ c ∈ ds, isDigit c = true

/-- The grammar's `int`: `0`, or a digit from 1 to 9 followed by digits. -/
def IsInt (t : List Nat) : Prop :=
  t = [48] ∨ ∃ c ds, t = c :: ds ∧ (49 ≤ c ∧ c ≤ 57) ∧ ∀ d ∈ ds, isDigit d = true

/-- The grammar's `frac`: nothing, or `.` and digits. -/
def IsFrac (t : List Nat) : Prop := t = [] ∨ ∃ ds, t = 46 :: ds ∧ IsDigits ds

/-- The grammar's `exp`: nothing, or `e`/`E`, an optional sign and digits. -/
def IsExp (t : List Nat) : Prop :=
  t = [] ∨ ∃ e sgn ds, t = e :: (sgn ++ ds) ∧ (e = 101 ∨ e = 69) ∧
    (sgn = [] ∨ sgn = [43] ∨ sgn = [45]) ∧ IsDigits ds

/-- The grammar's `number`: an optional minus, `int`, `frac`, `exp`. -/
def IsNumber (t : List Nat) : Prop :=
  ∃ sgn i f e, t = sgn ++ i ++ f ++ e ∧ (sgn = [] ∨ sgn = [45]) ∧ IsInt i ∧ IsFrac f ∧ IsExp e

/-- The grammar's `characters`, the text between the quotes of a string: plain
bytes (no control byte, quote or backslash), a backslash with one of
`"\\/bfnrt`, or `\\u` with four hexadecimal digits. -/
inductive IsStringBody : List Nat → Prop
  | nil : IsStringBody []
  | plain (c : Nat) (s : List Nat) : 32 ≤ c → c ≠ 34 → c ≠ 92 → IsStringBody s →
      IsStringBody (c :: s)
  | esc (e : Nat) (s : List Nat) : isSimpleEscape e = true → IsStringBody s →
      IsStringBody (92 :: e :: s)
  | uni (h1 h2 h3 h4 : Nat) (s : List Nat) : isHex h1 = true → isHex h2 = true →
      isHex h3 = true → isHex h4 = true → IsStringBody s →
      IsStringBody (92 :: 117 :: h1 :: h2 :: h3 :: h4 :: s)

/-- What a stretch of JSON text stands for: a value, the elements of a
non-empty array, or the members of a non-empty object. -/
inductive Node
  | val (j : JSON)
  | elems (js : List JSON)
  | members (ms : List (GoString × JSON))

/-- The grammar: `Denotes n t` when the text `t` is, by the productions of
RFC 8259, a text of the node `n`.  An element is a value between whitespace;
a member is a key string between whitespace, a colon and an element. -/
inductive Denotes : Node → List Nat → Prop
  | null : Denotes (Node.val JSON.null) (lit "null")
  | true : Denotes (Node.val (JSON.bool Bool.true)) (lit "true")
  | false : Denotes (Node.val (JSON.bool Bool.false)) (lit "false")
  | number (t : List Nat) : IsNumber t → Denotes (Node.val (JSON.number t)) t
  | str (raw : List Nat) : IsStringBody raw → Denotes (Node.val (JSON.str raw)) (34 :: raw ++ [34])
  | arrEmpty (w : List Nat) : IsWs w → Denotes (Node.val (JSON.arr [])) (91 :: w ++ [93])
  | arr (js : List JSON) (t : List Nat) : Denotes (Node.elems js) t →
      Denotes (Node.val (JSON.arr js)) (91 :: t ++ [93])
  | objEmpty (w : List Nat) : IsWs w → Denotes (Node.val (JSON.obj [])) (123 :: w ++ [125])
  | obj (ms : List (GoString × JSON)) (t : List Nat) : Denotes (Node.members ms) t →
      Denotes (Node.val (JSON.obj ms)) (123 :: t ++ [125])
  | elemsOne (w1 : List Nat) (j : JSON) (t w2 : List Nat) : IsWs w1 → Denotes (Node.val j) t →
      IsWs w2 → Denotes (Node.elems [j]) (w1 ++ t ++ w2)
  | elemsCons (w1 : List Nat) (j : JSON) (t w2 : List Nat) (js : List JSON) (ts : List Nat) :
      IsWs w1 → Denotes (Node.val j) t → IsWs w2 → Denotes (Node.elems js) ts →
      Denotes (Node.elems (j :: js)) (w1 ++ t ++ w2 ++ 44 :: ts)
  | membersOne (w1 key w2 w3 : List Nat) (j : JSON) (t w4 : List Nat) : IsWs w1 →
      IsStringBody key → IsWs w2 → IsWs w3 → Denotes (Node.val j) t → IsWs w4 →
      Denotes (Node.members [(key, j)]) (w1 ++ 34 :: key ++ 34 :: w2 ++ 58 :: w3 ++ t ++ w4)
  | membersCons (w1 key w2 w3 : List Nat) (j : JSON) (t w4 : List Nat)
      (ms : List (GoString × JSON)) (ts : List Nat) : IsWs w1 →
      IsStringBody key → IsWs w2 → IsWs w3 → Denotes (Node.val j) t → IsWs w4 →
      Denotes (Node.members ms) ts →
      Denotes (Node.members ((key, j) :: ms))
        (w1 ++ 34 :: key ++ 34 :: w2 ++ 58 :: w3 ++ t ++ w4 ++ 44 :: ts)

/-- A JSON text of the value `j`: a value with whitespace around it. -/
def IsJSONText (data : GoString) (j : JSON) : Prop :=
  ∃ w1 t w2, IsWs w1 ∧ Denotes (Node.val j) t ∧ IsWs w2 ∧ data = w1 ++ t ++ w2

/-- The first byte of `r`, if there is one, does not satisfy `p`. -/
def HeadNot (p : Nat → Bool) (r : List Nat) : Prop := ∀ c ∈ r.head?, p c = false

/-- What may follow a complete value: not a byte that would continue a number
(a digit, `.`, `e`, `E`). -/
def isNumberTail (c : Nat) : Bool := isDigit c || decide (c = 46 ∨ c = 101 ∨ c = 69)

/-! ## Decoding a JSON value into `SearchResponse`

Modelled from the specification (sections 4.3 and 6) and, where it is silent,
on `encoding/json`: a key selects the field whose name it equals up to case;
a key that selects no field is skipped; `null` leaves a field as it is; a value
of the wrong kind is an error; an array replaces the slice, each element being
decoded into a fresh zero value. -/

/-- The value of a hexadecimal digit. -/
def hexVal (c : Nat) : Nat :=
  if 48 ≤ c ∧ c ≤ 57 then c - 48 else if 97 ≤ c ∧ c ≤ 102 then c - 87 else c - 55

/-- The code unit written by four hexadecimal digits. -/
def getu4 (a b c d : Nat) : Nat := ((hexVal a * 16 + hexVal b) * 16 + hexVal c) * 16 + hexVal d

/-- Go `utf8.EncodeRune`: the UTF-8 bytes of a code point; a surrogate or a
value beyond U+10FFFF is written as U+FFFD. -/
def encodeRune (n : Nat) : GoString :=
  if n < 0x80 then [n]
  else if n < 0x800 then [0xC0 + n / 64, 0x80 + n % 64]
  else if (0xD800 ≤ n ∧ n < 0xE000) ∨ 0x10FFFF < n then [0xEF, 0xBF, 0xBD]
  else if n < 0x10000 then [0xE0 + n / 4096, 0x80 + n / 64 % 64, 0x80 + n % 64]
  else [0xF0 + n / 262144, 0x80 + n / 4096 % 64, 0x80 + n / 64 % 64, 0x80 + n % 64]

/-- A UTF-8 continuation byte. -/
def isCont (b : Nat) : Bool := decide (0x80 ≤ b ∧ b ≤ 0xBF)

/-- The length of the well-formed UTF-8 sequence at the head of the input, or
0 when the head is not the start of one (Go `utf8.DecodeRune` then yields
U+FFFD of width 1). -/
def utf8Size : List Nat → Nat
  | [] => 0
  | b0 :: rest =>
    if 0xC2 ≤ b0 ∧ b0 ≤ 0xDF then
      match rest with
      | b1 :: _ => if isCont b1 then 2 else 0
      | _ => 0
    else if 0xE0 ≤ b0 ∧ b0 ≤ 0xEF then
      match rest with
      | b1 :: b2 :: _ =>
        if (if b0 = 0xE0 then 0xA0 else 0x80) ≤ b1 ∧ b1 ≤ (if b0 = 0xED then 0x9F else 0xBF)
            ∧ isCont b2 then 3 else 0
      | _ => 0
    else if 0xF0 ≤ b0 ∧ b0 ≤ 0xF4 then
      match rest with
      | b1 :: b2 :: b3 :: _ =>
        if (if b0 = 0xF0 then 0x90 else 0x80) ≤ b1 ∧ b1 ≤ (if b0 = 0xF4 then 0x8F else 0xBF)
            ∧ isCont b2 ∧ isCont b3 then 4 else 0
      | _ => 0
    else 0

/-- The byte a simple escape stands for. -/
def escapeValue (e : Nat) : Nat :=
  if e = 98 then 8 else if e = 102 then 12 else if e = 110 then 10
  else if e = 114 then 13 else if e = 116 then 9 else e

/-- The low half of a surrogate pair, when the input starts with `\\uXXXX`. -/
def lowSurrogate : List Nat → Option Nat
  | b :: u :: a :: b2 :: c :: d :: _ =>
    if b = 92 ∧ u = 117 ∧ 0xDC00 ≤ getu4 a b2 c d ∧ getu4 a b2 c d < 0xE000 then
      some (getu4 a b2 c d)
    else none
  | _ => none

/-- Go `unquoteBytes` on the text between the quotes of a scanned string:
escapes are resolved, a `\\u` surrogate pair becomes one code point, a lone
surrogate and a byte that is not well-formed UTF-8 become U+FFFD. -/
def unquoteLoop : Nat → List Nat → GoString
  | 0, _ => []
  | fuel + 1, s =>
    match s with
    | [] => []
    | c :: r =>
      if c = 92 then
        match r with
        | [] => []
        | e :: r1 =>
          if e = 117 then
            match r1 with
            | h1 :: h2 :: h3 :: h4 :: r2 =>
              if 0xD800 ≤ getu4 h1 h2 h3 h4 ∧ getu4 h1 h2 h3 h4 < 0xE000 then
                match lowSurrogate r2 with
                | some lo =>
                  if getu4 h1 h2 h3 h4 < 0xDC00 then
                    encodeRune ((getu4 h1 h2 h3 h4 - 0xD800) * 1024 + (lo - 0xDC00) + 0x10000)
                      ++ unquoteLoop fuel (r2.drop 6)
                  else [0xEF, 0xBF, 0xBD] ++ unquoteLoop fuel r2
                | none => [0xEF, 0xBF, 0xBD] ++ unquoteLoop fuel r2
              else encodeRune (getu4 h1 h2 h3 h4) ++ unquoteLoop fuel r2
            | _ => []
          else escapeValue e :: unquoteLoop fuel r1
      else if c < 0x80 then c :: unquoteLoop fuel r
      else if utf8Size (c :: r) = 0 then [0xEF, 0xBF, 0xBD] ++ unquoteLoop fuel r
      else (c :: r).take (utf8Size (c :: r)) ++ unquoteLoop fuel (r.drop (utf8Size (c :: r) - 1))

/-- The string a scanned string text stands for. -/
def unquote (raw : GoString) : GoString := unquoteLoop raw.length raw

/-- The loop of `foldName`; the fuel is the length of the input. -/
def foldLoop : Nat → GoString → GoString
  | 0, _ => []
  | fuel + 1, s =>
    match s with
    | [] => []
    | c :: r =>
      if 97 ≤ c ∧ c ≤ 122 then (c - 32) :: foldLoop fuel r
      else if c = 0xE2 ∧ r.take 2 = [0x84, 0xAA] then 75 :: foldLoop fuel (r.drop 2)
      else if c = 0xC5 ∧ r.take 1 = [0xBF] then 83 :: foldLoop fuel (r.drop 1)
      else c :: foldLoop fuel r

/-- Case folding of a key, as `encoding/json` compares keys with field names:
ASCII letters to upper case, and the two letters outside ASCII that fold to an
ASCII letter, the Kelvin sign to `K` and the long s to `S`. -/
def foldName (s : GoString) : GoString := foldLoop s.length s

/-- One field of a struct: its JSON name, how a value is stored into the
struct, and which values can be stored without error. -/
structure Field (α : Type) where
  name : GoString
  decode : JSON → α → Except GoError α
  accepts : JSON → Bool

/-- The field a key selects, if any. -/
def findField {α : Type} (fields : List (Field α)) (key : GoString) : Option (Field α) :=
  fields.find? fun f => foldName f.name == foldName (unquote key)

/-- The error for a value of the wrong kind. -/
def typeError : GoError := lit "json: cannot unmarshal value of this kind"

/-- Decode one member of an object into the struct. -/
def decodeMember {α : Type} (fields : List (Field α)) (acc : α) (kv : GoString × JSON) :
    Except GoError α :=
  match findField fields kv.1 with
  | some f => f.decode kv.2 acc
  | none => .ok acc

/-- Modelled from the spec: how the absent decoder fills a struct.  Decode a
value into a struct: an object member by member, in order;
`null` changes nothing; anything else is an error. -/
def decodeObject {α : Type} (fields : List (Field α)) : JSON → α → Except GoError α
  | JSON.obj members, old => members.foldlM (decodeMember fields) old
  | JSON.null, old => .ok old
  | _, _ => .error typeError

/-- The values `decodeObject` stores without error, provided its fields accept
theirs. -/
def acceptsObject {α : Type} (fields : List (Field α)) : JSON → Bool
  | JSON.obj members => members.all fun kv =>
      match findField fields kv.1 with
      | some f => f.accepts kv.2
      | none => true
  | JSON.null => true
  | _ => false

/-- Modelled from the spec: how the absent decoder fills a string field. -/
def decodeString : JSON → GoString → Except GoError GoString
  | JSON.str raw, _ => .ok (unquote raw)
  | JSON.null, old => .ok old
  | _, _ => .error typeError

/-- The values a string field accepts. -/
def acceptsString : JSON → Bool
  | JSON.str _ => true
  | JSON.null => true
  | _ => false

/-- Modelled from the spec: how the absent decoder fills a slice field: an
array element by element, each into a fresh zero value; `null` gives the nil
slice. -/
def decodeSlice {α : Type} (zero : α) (elem : JSON → α → Except GoError α) :
    JSON → Except GoError (List α)
  | JSON.arr items => items.mapM fun j => elem j zero
  | JSON.null => .ok []
  | _ => .error typeError

/-- The values a slice field accepts. -/
def acceptsSlice (elem : JSON → Bool) : JSON → Bool
  | JSON.arr items => items.all elem
  | JSON.null => true
  | _ => false

/-! ## The fields of `SearchResponse` (section 6 of the specification) -/

/-- The zero value of a parts-availability record. -/
def zeroPart : PartAvailability := { StorePickupProductTitle := [], PickupSearchQuote := [] }

/-- The zero value of a store. -/
def zeroStore : Store := { StoreName := [], PartsAvailability := [] }

/-- The zero value of the response: no store. -/
def zeroResponse : SearchResponse :=
  { Body := { Content := { PickupMessage := { Stores := [] } } } }

/-- Modelled from the spec: the fields of a parts-availability record,
`storePickupProductTitle` and `pickupSearchQuote`. -/
def partFields : List (Field PartAvailability) :=
  [{ name := lit "storePickupProductTitle",
     decode := fun j p => (decodeString j p.StorePickupProductTitle).map
        fun s => { p with StorePickupProductTitle := s },
     accepts := acceptsString },
   { name := lit "pickupSearchQuote",
     decode := fun j p => (decodeString j p.PickupSearchQuote).map
        fun s => { p with PickupSearchQuote := s },
     accepts := acceptsString }]

/-- Modelled from the spec: the fields of a store, `storeName` and
`partsAvailability`. -/
def storeFields : List (Field Store) :=
  [{ name := lit "storeName",
     decode := fun j st => (decodeString j st.StoreName).map fun s => { st with StoreName := s },
     accepts := acceptsString },
   { name := lit "partsAvailability",
     decode := fun j st => (decodeSlice zeroPart (decodeObject partFields) j).map
        fun ps => { st with PartsAvailability := ps },
     accepts := acceptsSlice (acceptsObject partFields) }]

/-- Modelled from the spec: the field `stores` of `pickupMessage`. -/
def pickupMessageFields : List (Field PickupMessage) :=
  [{ name := lit "stores",
     decode := fun j _ => (decodeSlice zeroStore (decodeObject storeFields) j).map
        fun ss => { Stores := ss },
     accepts := acceptsSlice (acceptsObject storeFields) }]

/-- Modelled from the spec: the field `pickupMessage` of `content`. -/
def contentFields : List (Field Content) :=
  [{ name := lit "pickupMessage",
     decode := fun j c => (decodeObject pickupMessageFields j c.PickupMessage).map
        fun m => { PickupMessage := m },
     accepts := acceptsObject pickupMessageFields }]

/-- Modelled from the spec: the field `content` of `body`. -/
def bodyFields : List (Field Body) :=
  [{ name := lit "content",
     decode := fun j b => (decodeObject contentFields j b.Content).map fun c => { Content := c },
     accepts := acceptsObject contentFields }]

/-- Modelled from the spec: the field `body` of the response. -/
def responseFields : List (Field SearchResponse) :=
  [{ name := lit "body",
     decode := fun j r => (decodeObject bodyFields j r.Body).map fun b => { Body := b },
     accepts := acceptsObject bodyFields }]

/-- The error for a text that is not JSON. -/
def syntaxError : GoError := lit "json: invalid JSON text"

/-- Modelled from the spec: `json.Unmarshal(data, searchResponse)` on the fresh
`SearchResponse` of apple.go:124; the decoder is not among the sources.  A text
that is not JSON is an error; otherwise the value is decoded into the zero
response. -/
def Unmarshal (data : GoString) : Except GoError SearchResponse :=
  match parseJSON data with
  | none => .error syntaxError
  | some j => decodeObject responseFields j zeroResponse

/-- A sample body: unknown fields at several levels, a store without
`partsAvailability`, a store with one record. -/
def demoBody : GoString :=
  lit ("\x7b\"head\":\x7b\"status\":200\x7d,\"body\":\x7b\"content\":\x7b\"pickupMessage\":\x7b\"stores\":["
    ++ "\x7b\"storeName\":\"Store5\",\"city\":\"NY\"\x7d,"
    ++ "\x7b\"storeName\":\"Store6\",\"partsAvailability\":[\x7b\"storePickupProductTitle\":"
    ++ "\"iPhone 15\",\"pickupSearchQuote\":\"Available, pick up today\",\"x\":[1,2.5e3,null]\x7d]\x7d"
    ++ "],\"extra\":true\x7d\x7d\x7d\x7d")

/-- The number a string of decimal digits writes, most significant digit
first. -/
def decimalValue (s : GoString) : Nat := s.foldl (fun acc d => 10 * acc + (d - 48)) 0

/-! ## Building the request

`http.NewRequestWithContext` is part of Go's standard library.  With the
constant method `GET` and a non-nil context it fails only when `url.Parse`
rejects the URL, and `url.Parse` takes the text after the first `?` as the raw
query without examining it further than for control bytes and `#`. -/

/-- The bytes `Values.Encode` can write: letters, digits, `-_.~`, and
`%`, `+`, `=`, `&`. -/
def isQuerySafe (c : Nat) : Bool :=
  decide ((97 ≤ c ∧ c ≤ 122) ∨ (65 ≤ c ∧ c ≤ 90) ∨ (48 ≤ c ∧ c ≤ 57) ∨ c = 45 ∨ c = 95 ∨ c = 46
    ∨ c = 126 ∨ c = 37 ∨ c = 43 ∨ c = 61 ∨ c = 38)

/-- What Go's `http.NewRequestWithContext` guarantees for the URLs of this
program (net/http and net/url are not among the sources): the request for
`SearchUrl`, `?` and a query of such bytes only is built without error. -/
def NewRequestContract (env : Env) : Prop :=
  ∀ q : GoString, (∀ c ∈ q, isQuerySafe c = true) →
    env.NewRequest (SearchUrl ++ lit "?" ++ q) = none

/-- A sample environment in which the request times out. -/
def demoEnvDown : Env :=
  { NewRequest := fun _ => none,
    Do := fun _ => .error (lit "context deadline exceeded"),
    Unmarshal := fun _ => .ok demoResponse,
    Get := fun _ _ => none }

/-- A sample environment in which the body is cut short and so does not
decode. -/
def demoEnvBadBody : Env :=
  { NewRequest := fun _ => none,
    Do := fun _ => .ok { Body := .ok (lit "(cut)") },
    Unmarshal := fun _ => .error (lit "unexpected end of JSON input"),
    Get := fun _ _ => none }

/-! ## The response a JSON value stands for, read by field paths

An account of the decoded response that does not go through the decoder: the
members are looked up by name along the path
`body.content.pickupMessage.stores` of section 6. -/

/-- Whether the key of a member selects the field of the given name. -/
def keyIs (name : GoString) (kv : GoString × JSON) : Bool :=
  foldName name == foldName (unquote kv.1)

/-- The value of the member that selects the field, if there is one. -/
def field (ms : List (GoString × JSON)) (name : GoString) : Option JSON :=
  (ms.find? (keyIs name)).map Prod.snd

/-- The members of an object; none for anything else. -/
def membersOf : Option JSON → List (GoString × JSON)
  | some (JSON.obj ms) => ms
  | _ => []

/-- The elements of an array; none for anything else. -/
def itemsOf : Option JSON → List JSON
  | some (JSON.arr items) => items
  | _ => []

/-- The string a field holds after a member is stored into it: the string of
the member, or what the field held when the member is absent or `null`. -/
def strAp : Option JSON → GoString → GoString
  | some (JSON.str raw), _ => unquote raw
  | _, old => old

/-- The parts-availability record a JSON value stands for. -/
def partOf (j : JSON) : PartAvailability :=
  { StorePickupProductTitle := strAp (field (membersOf (some j)) (lit "storePickupProductTitle")) [],
    PickupSearchQuote := strAp (field (membersOf (some j)) (lit "pickupSearchQuote")) [] }

/-- The store a JSON value stands for: its name and, when it has a
`partsAvailability` array, the records of that array, else none. -/
def storeOf (j : JSON) : Store :=
  { StoreName := strAp (field (membersOf (some j)) (lit "storeName")) [],
    PartsAvailability :=
      (itemsOf (field (membersOf (some j)) (lit "partsAvailability"))).map partOf }

/-- The elements of the array at `body.content.pickupMessage.stores`; none
when a step of the path is absent. -/
def storesOf (j : JSON) : List JSON :=
  itemsOf (field (membersOf (field (membersOf (field (membersOf (field (membersOf (some j))
    (lit "body"))) (lit "content"))) (lit "pickupMessage"))) (lit "stores"))

/-- The response a JSON value stands for. -/
def responseOf (j : JSON) : SearchResponse :=
  { Body := { Content := { PickupMessage := { Stores := (storesOf j).map storeOf } } } }

/-- At most one member selects the field, and the value of a member that does
is of the right kind. -/
def fieldOk (ms : List (GoString × JSON)) (name : GoString) (ok : JSON → Bool) : Bool :=
  decide ((ms.filter (keyIs name)).length ≤ 1) && ms.all fun kv => !keyIs name kv || ok kv.2

/-- An object, or `null`, in which each of the listed fields is selected at
most once and by a value of the right kind; other members are free. -/
def shapedObject (checks : List (GoString × (JSON → Bool))) : JSON → Bool
  | JSON.obj ms => checks.all fun c => fieldOk ms c.1 c.2
  | JSON.null => true
  | _ => false

/-- The shape of a parts-availability record. -/
def shapedPart : JSON → Bool :=
  shapedObject [(lit "storePickupProductTitle", acceptsString),
    (lit "pickupSearchQuote", acceptsString)]

/-- The shape of a store. -/
def shapedStore : JSON → Bool :=
  shapedObject [(lit "storeName", acceptsString),
    (lit "partsAvailability", acceptsSlice shapedPart)]

/-- The shape of `pickupMessage`. -/
def shapedPickupMessage : JSON → Bool :=
  shapedObject [(lit "stores", acceptsSlice shapedStore)]

/-- The shape of `content`. -/
def shapedContent : JSON → Bool := shapedObject [(lit "pickupMessage", shapedPickupMessage)]

/-- The shape of `body`. -/
def shapedBody : JSON → Bool := shapedObject [(lit "content", shapedContent)]

/-- The shape of a response body as section 6 gives it, unknown members
allowed everywhere and every known member optional. -/
def shapedResponse : JSON → Bool := shapedObject [(lit "body", shapedBody)]

/-- What a store becomes when a `storeName` member is stored into it. -/
def apStoreName (o : Option JSON) (st : Store) : Store :=
  { st with StoreName := strAp o st.StoreName }

/-- What a store becomes when a `partsAvailability` member is stored into it. -/
def apParts : Option JSON → Store → Store
  | some v, st => { st with PartsAvailability := (itemsOf (some v)).map partOf }
  | none, st => st

/-- What a record becomes when a `storePickupProductTitle` member is stored. -/
def apTitle (o : Option JSON) (p : PartAvailability) : PartAvailability :=
  { p with StorePickupProductTitle := strAp o p.StorePickupProductTitle }

/-- What a record becomes when a `pickupSearchQuote` member is stored. -/
def apQuote (o : Option JSON) (p : PartAvailability) : PartAvailability :=
  { p with PickupSearchQuote := strAp o p.PickupSearchQuote }

/-- What `pickupMessage` becomes when a `stores` member is stored into it. -/
def apStores : Option JSON → PickupMessage → PickupMessage
  | some v, _ => { Stores := (itemsOf (some v)).map storeOf }
  | none, m => m

/-- What `content` becomes when a `pickupMessage` member is stored into it. -/
def apPickupMessage : Option JSON → Content → Content
  | some v, c =>
    { PickupMessage := apStores (field (membersOf (some v)) (lit "stores")) c.PickupMessage }
  | none, c => c

/-- What `body` becomes when a `content` member is stored into it. -/
def apContent : Option JSON → Body → Body
  | some v, b =>
    { Content := apPickupMessage (field (membersOf (some v)) (lit "pickupMessage")) b.Content }
  | none, b => b

/-- What the response becomes when a `body` member is stored into it. -/
def apBody : Option JSON → SearchResponse → SearchResponse
  | some v, r => { Body := apContent (field (membersOf (some v)) (lit "content")) r.Body }
  | none, r => r

/-! ## `Serve` (apple.go:40-52) -/

/-- The first `n` turns of the loop of `Serve`: turn `k` waits for the timer
set by the turn before (the first turn does not wait) and runs `ReqSearch`, in
the environment `envs k`.  Nothing recovers a panic, so a cycle that panics ends
the process and no later turn runs.  The outcome `returned` says that every one
of the `n` cycles returned, so that the loop goes on to the next turn; waiting
is timing and leaves no event. -/
def Serve (envs : Nat → Env) (cfg : ConfigOption) : Nat → Run
  | 0 => { trace := [], outcome := Outcome.returned }
  | n + 1 =>
    match (Serve envs cfg n).outcome with
    | Outcome.panicked => Serve envs cfg n
    | Outcome.returned =>
      { trace := (Serve envs cfg n).trace ++ (ReqSearch (envs n) cfg).trace,
        outcome := (ReqSearch (envs n) cfg).outcome }
/-! ## Lemmas on substring search -/

theorem hasPrefix_iff (s pre : GoString) : HasPrefix s pre = true ↔ ∃ t, s = pre ++ t := by
  unfold HasPrefix
  rw [List.isPrefixOf_iff_prefix]
  constructor
  · rintro ⟨t, rfl⟩; exact ⟨t, rfl⟩
  · rintro ⟨t, rfl⟩; exact ⟨t, rfl⟩

theorem indexFrom_nonneg_iff (substr : GoString) (s : GoString) (i : Nat) :
    0 ≤ indexFrom substr s i ↔ IsSubstring substr s := by
  induction s generalizing i with
  | nil =>
    unfold indexFrom
    by_cases h : substr = []
    · subst h; simp [IsSubstring]
    · simp only [h, if_false]
      constructor
      · intro h0; omega
      · rintro ⟨pre, post, hp⟩
        have : substr = [] := by
          have h1 := congrArg List.length hp
          simp at h1
          exact List.length_eq_zero.mp (by omega)
        exact absurd this h
  | cons c t ih =>
    unfold indexFrom
    by_cases hp : HasPrefix (c :: t) substr = true
    · simp only [hp, if_true]
      constructor
      · intro _
        obtain ⟨r, hr⟩ := (hasPrefix_iff _ _).mp hp
        exact ⟨[], r, by simpa using hr⟩
      · intro _; exact Int.ofNat_nonneg i
    · simp only [hp]
      rw [if_neg (by simp), ih (i + 1)]
      constructor
      · rintro ⟨pre, post, h⟩
        exact ⟨c :: pre, post, by simp [h]⟩
      · rintro ⟨pre, post, h⟩
        cases pre with
        | nil =>
          exfalso
          apply hp
          exact (hasPrefix_iff _ _).mpr ⟨post, by simpa using h⟩
        | cons d pre =>
          simp only [List.cons_append, List.cons.injEq] at h
          exact ⟨pre, post, h.2⟩

theorem contains_iff (s substr : GoString) : Contains s substr = true ↔ IsSubstring substr s := by
  unfold Contains Index
  rw [decide_eq_true_iff]
  exact indexFrom_nonneg_iff substr s 0

theorem IsSubstring.trans {a b c : GoString} (h1 : IsSubstring a b) (h2 : IsSubstring b c) :
    IsSubstring a c := by
  obtain ⟨p1, q1, rfl⟩ := h1
  obtain ⟨p2, q2, rfl⟩ := h2
  exact ⟨p2 ++ p1, q1 ++ q2, by simp⟩

/-! ## The stock classifier -/

theorem hasStock_true_iff (quote : GoString) :
    hasStockOffline quote = true ↔
      IsSubstring (lit "vailable") quote ∧ ¬ IsSubstring (lit "Currently unavailable") quote := by
  unfold hasStockOffline
  rw [Bool.and_eq_true, Bool.not_eq_true', ← Bool.not_eq_true, contains_iff, contains_iff]

/-- C1: `hasStockOffline quote` is true exactly when the quote contains the
substring "vailable" and does not contain the substring "Currently unavailable";
matching is on bytes, hence case-sensitive. -/
theorem hasStockOffline_iff (quote : GoString) :
    hasStockOffline quote = true ↔
      IsSubstring (lit "vailable") quote ∧ ¬ IsSubstring (lit "Currently unavailable") quote :=
  hasStock_true_iff quote

/-- C2: a quote that contains "Currently unavailable" is classified not in
stock, whatever else it contains. -/
theorem hasStockOffline_currently_unavailable (quote : GoString)
    (h : IsSubstring (lit "Currently unavailable") quote) : hasStockOffline quote = false := by
  rw [← Bool.not_eq_true, hasStock_true_iff]
  exact fun hq => hq.2 h

theorem hasStockOffline_currently_unavailable_witness :
    IsSubstring (lit "Currently unavailable")
        (lit "Available soon. Currently unavailable in store, available online") ∧
      hasStockOffline (lit "Available soon. Currently unavailable in store, available online")
        = false :=
  ⟨⟨lit "Available soon. ", lit " in store, available online", by decide⟩,
   hasStockOffline_currently_unavailable _
    ⟨lit "Available soon. ", lit " in store, available online", by decide⟩⟩

/-- C3: a quote that contains "Available" and does not contain "Currently
unavailable" is classified in stock. -/
theorem hasStockOffline_available (quote : GoString)
    (h : IsSubstring (lit "Available") quote)
    (hn : ¬ IsSubstring (lit "Currently unavailable") quote) : hasStockOffline quote = true := by
  rw [hasStock_true_iff]
  exact ⟨IsSubstring.trans ⟨lit "A", [], by decide⟩ h, hn⟩

theorem hasStockOffline_available_witness :
    IsSubstring (lit "Available") (lit "Available, pick up today") ∧
      ¬ IsSubstring (lit "Currently unavailable") (lit "Available, pick up today") ∧
      hasStockOffline (lit "Available, pick up today") = true :=
  ⟨⟨[], lit ", pick up today", by decide⟩, by rw [← contains_iff]; decide,
    hasStockOffline_available (lit "Available, pick up today")
      ⟨[], lit ", pick up today", by decide⟩ (by rw [← contains_iff]; decide)⟩

/-- C10: a quote that contains "unavailable" or "Unavailable" but not the exact
phrase "Currently unavailable" is classified in stock. -/
theorem hasStockOffline_other_negation (quote : GoString)
    (h : IsSubstring (lit "unavailable") quote ∨ IsSubstring (lit "Unavailable") quote)
    (hn : ¬ IsSubstring (lit "Currently unavailable") quote) : hasStockOffline quote = true := by
  rw [hasStock_true_iff]
  refine ⟨?_, hn⟩
  rcases h with h | h
  · exact IsSubstring.trans ⟨lit "una", [], by decide⟩ h
  · exact IsSubstring.trans ⟨lit "Una", [], by decide⟩ h

theorem hasStockOffline_other_negation_witness :
    (IsSubstring (lit "Unavailable") (lit "Unavailable for pickup") ∧
      ¬ IsSubstring (lit "Currently unavailable") (lit "Unavailable for pickup") ∧
      hasStockOffline (lit "Unavailable for pickup") = true) ∧
    (IsSubstring (lit "unavailable") (lit "currently unavailable") ∧
      ¬ IsSubstring (lit "Currently unavailable") (lit "currently unavailable") ∧
      hasStockOffline (lit "currently unavailable") = true) :=
  ⟨⟨⟨[], lit " for pickup", by decide⟩, by rw [← contains_iff]; decide,
      hasStockOffline_other_negation (lit "Unavailable for pickup")
        (Or.inr ⟨[], lit " for pickup", by decide⟩) (by rw [← contains_iff]; decide)⟩,
   ⟨⟨lit "currently ", [], by decide⟩, by rw [← contains_iff]; decide,
      hasStockOffline_other_negation (lit "currently unavailable")
        (Or.inl ⟨lit "currently ", [], by decide⟩) (by rw [← contains_iff]; decide)⟩⟩

/-! ## The notifier -/

theorem getUrls_append (a b : List Event) : getUrls (a ++ b) = getUrls a ++ getUrls b := by
  simp [getUrls, List.filterMap_append]

theorem getUrls_sendOne (env : Env) (msg : Message) (st : SendState) (e : GoString) :
    getUrls (sendOne env msg st e).trace = getUrls st.trace ++ [barkUrl e msg] := by
  simp only [sendOne]
  cases env.Get st.sends (barkUrl e msg) <;> simp [getUrls]

theorem getUrls_inner (env : Env) (msg : Message) (es : List GoString) (st : SendState) :
    getUrls (es.foldl (sendOne env msg) st).trace
      = getUrls st.trace ++ es.map (fun e => barkUrl e msg) := by
  induction es generalizing st with
  | nil => simp
  | cons e es ih => simp [List.foldl_cons, ih, getUrls_sendOne]

theorem getUrls_sendLoop (env : Env) (cfg : ConfigOption) (messages : List Message)
    (st : SendState) :
    getUrls (sendLoop env cfg messages st).trace
      = getUrls st.trace
        ++ messages.flatMap (fun m => cfg.NotifyUrl.map (fun e => barkUrl e m)) := by
  unfold sendLoop
  induction messages generalizing st with
  | nil => simp
  | cons m ms ih => simp [List.foldl_cons, ih, getUrls_inner]

theorem getUrls_sendNotification (env : Env) (cfg : ConfigOption) (messages : List Message) :
    getUrls (sendNotificationToBarkApp env cfg messages)
      = messages.flatMap (fun m => cfg.NotifyUrl.map (fun e => barkUrl e m)) := by
  unfold sendNotificationToBarkApp
  rw [getUrls_sendLoop]
  simp [getUrls]

theorem length_flatMap_const {α β : Type} (f : α → List β) (n : Nat) (l : List α)
    (h : ∀ a ∈ l, (f a).length = n) : (l.flatMap f).length = l.length * n := by
  induction l with
  | nil => simp
  | cons a l ih =>
    simp only [List.flatMap_cons, List.length_append, List.length_cons]
    rw [ih (fun b hb => h b (List.mem_cons_of_mem _ hb)), h a (List.mem_cons_self _ _)]
    ring

/-- C4 (as amended): the URLs that `sendNotificationToBarkApp` passes to the
HTTP client are, for each message and each notify endpoint, the endpoint, "/",
the title, "/", the content and "?sound=minuet", title and content verbatim. -/
theorem sendNotificationToBarkApp_urls_verbatim (env : Env) (cfg : ConfigOption)
    (messages : List Message) :
    getUrls (sendNotificationToBarkApp env cfg messages)
      = messages.flatMap (fun m => cfg.NotifyUrl.map (fun e =>
          e ++ lit "/" ++ m.Title ++ lit "/" ++ m.Content ++ lit "?sound=minuet")) :=
  getUrls_sendNotification env cfg messages

/-- C4 (counterexample): for the endpoint "http://n.example/push" and the
message with title "a?b" and content "c" the URL requested is not the one with
the path-escaped title: the "?" of the title stands in it unescaped. -/
theorem sendNotificationToBarkApp_url_not_escaped :
    getUrls (sendNotificationToBarkApp
        { NewRequest := fun _ => none, Do := fun _ => .error [],
          Unmarshal := fun _ => .error [], Get := fun _ _ => none }
        { Location := [], Models := [], SearchInterval := 1,
          NotifyUrl := [lit "http://n.example/push"] }
        [{ Title := lit "a?b", Content := lit "c" }])
      = [lit "http://n.example/push/a?b/c?sound=minuet"] ∧
    lit "http://n.example/push" ++ lit "/" ++ PathEscape (lit "a?b") ++ lit "/"
        ++ PathEscape (lit "c") ++ lit "?sound=minuet"
      = lit "http://n.example/push/a%3Fb/c?sound=minuet" ∧
    lit "http://n.example/push/a?b/c?sound=minuet"
      ≠ lit "http://n.example/push/a%3Fb/c?sound=minuet" := by
  refine ⟨by decide, by decide, by decide⟩

/-- C5: whatever the outcomes of the individual sends, the GETs attempted are
one per (message, endpoint) pair, in message-major order, and their number is
the number of messages times the number of endpoints. -/
theorem sendNotificationToBarkApp_attempts (env : Env) (cfg : ConfigOption)
    (messages : List Message) :
    getUrls (sendNotificationToBarkApp env cfg messages)
      = (messages.flatMap (fun m => cfg.NotifyUrl.map (fun e => (m, e)))).map
          (fun p => barkUrl p.2 p.1) ∧
    (getUrls (sendNotificationToBarkApp env cfg messages)).length
      = cfg.NotifyUrl.length * messages.length := by
  rw [getUrls_sendNotification]
  constructor
  · simp [List.map_flatMap, Function.comp_def]
  · rw [length_flatMap_const _ cfg.NotifyUrl.length]
    · ring
    · intro a _; simp

/-! ## The messages of one poll cycle -/

theorem partStep_foldl (store : Store) (parts : List PartAvailability)
    (st : List Message × List Event) :
    parts.foldl (partStep store) st
      = (st.1 ++ (parts.filter fun info => hasStockOffline info.PickupSearchQuote).map
            (mkMessage store),
         st.2 ++ (parts.filter fun info => !hasStockOffline info.PickupSearchQuote).map
            fun info => Event.log (lit "[E] 型号:" ++ info.StorePickupProductTitle ++
              lit " 地点:" ++ store.StoreName ++ lit " " ++ info.PickupSearchQuote)) := by
  induction parts generalizing st with
  | nil => simp
  | cons info parts ih =>
    rw [List.foldl_cons, ih]
    cases h : hasStockOffline info.PickupSearchQuote <;> simp [partStep, h]

theorem collect_foldl (stores : List Store) (st : List Message × List Event) :
    stores.foldl (fun st store => store.PartsAvailability.foldl (partStep store) st) st
      = (st.1 ++ inStockMessages stores, st.2 ++ notInStockLogs stores) := by
  induction stores generalizing st with
  | nil => simp [inStockMessages, notInStockLogs]
  | cons store stores ih =>
    rw [List.foldl_cons, ih, partStep_foldl]
    simp [inStockMessages, notInStockLogs, mkMessage]

theorem collect_eq (stores : List Store) :
    collect stores = (inStockMessages stores, notInStockLogs stores) := by
  unfold collect
  rw [collect_foldl]
  simp

theorem inStockMessages_length (stores : List Store) :
    (inStockMessages stores).length
      = (stores.flatMap fun store => store.PartsAvailability).countP
          (fun info => hasStockOffline info.PickupSearchQuote) := by
  induction stores with
  | nil => simp [inStockMessages]
  | cons store stores ih =>
    simp only [inStockMessages, List.flatMap_cons, List.length_append, List.length_map,
      List.countP_append] at ih ⊢
    rw [ih]
    simp [List.countP_eq_length_filter]

/-- C6: when the response is fetched and decoded, the list handed to the
notifier is the list of the in-stock records' messages, stores in order and
records in order inside each store; records not in stock are logged and yield no
message; the number of messages is the number of in-stock records. -/
theorem ReqSearch_messages (env : Env) (cfg : ConfigOption) (resp : Response) (data : GoString)
    (searchResponse : SearchResponse)
    (hreq : env.NewRequest (makeUrl cfg) = none)
    (hdo : env.Do (makeUrl cfg) = .ok resp)
    (hbody : resp.Body = .ok data)
    (hdec : env.Unmarshal data = .ok searchResponse) :
    (collect searchResponse.Body.Content.PickupMessage.Stores).1
      = inStockMessages searchResponse.Body.Content.PickupMessage.Stores ∧
    ReqSearch env cfg =
      { trace :=
          [Event.log (lit "[I] 开始查询苹果接口. 查询位置:" ++ cfg.Location),
            Event.newRequest (makeUrl cfg), Event.clientDo (some (makeUrl cfg)),
            Event.readAll, Event.jsonUnmarshal data]
          ++ notInStockLogs searchResponse.Body.Content.PickupMessage.Stores
          ++ sendNotificationToBarkApp env cfg
              (inStockMessages searchResponse.Body.Content.PickupMessage.Stores),
        outcome := Outcome.returned } ∧
    (inStockMessages searchResponse.Body.Content.PickupMessage.Stores).length
      = (searchResponse.Body.Content.PickupMessage.Stores.flatMap
            fun store => store.PartsAvailability).countP
          (fun info => hasStockOffline info.PickupSearchQuote) := by
  refine ⟨by rw [collect_eq], ?_, inStockMessages_length _⟩
  simp only [ReqSearch, hreq, hdo, unMarshalResp, hbody, hdec, collect_eq]
  simp

/-! ## Query escaping -/

theorem upperhex_ne (n : Nat) : upperhex n ≠ 38 ∧ upperhex n ≠ 61 := by
  unfold upperhex
  split <;> omega

theorem escapeByte_query_no_separator (c : Nat) :
    ∀ b ∈ escapeByte c encoding.encodeQueryComponent, b ≠ 38 ∧ b ≠ 61 := by
  intro b hb
  unfold escapeByte at hb
  split at hb
  · simp only [List.mem_singleton] at hb
    omega
  · split at hb
    · simp only [List.mem_cons, List.mem_singleton, List.not_mem_nil, or_false] at hb
      rcases hb with h | h | h
      · omega
      · rw [h]; exact upperhex_ne _
      · rw [h]; exact upperhex_ne _
    · rename_i h2
      simp only [List.mem_singleton] at hb
      subst hb
      constructor
      · intro h; subst h; exact h2 (by decide)
      · intro h; subst h; exact h2 (by decide)

theorem queryEscape_no_separator (s : GoString) :
    ∀ b ∈ QueryEscape s, b ≠ 38 ∧ b ≠ 61 := by
  intro b hb
  simp only [QueryEscape, escape, List.mem_flatMap] at hb
  obtain ⟨c, _, hc⟩ := hb
  exact escapeByte_query_no_separator c b hc

theorem escape_append (s t : GoString) (mode : encoding) :
    escape (s ++ t) mode = escape s mode ++ escape t mode := by
  simp [escape, List.flatMap_append]

theorem queryEscape_append (s t : GoString) :
    QueryEscape (s ++ t) = QueryEscape s ++ QueryEscape t :=
  escape_append s t _

theorem escapeByte_digit (c : Nat) (hc : 48 ≤ c ∧ c ≤ 57) :
    escapeByte c encoding.encodeQueryComponent = [c] := by
  have hse : shouldEscape c encoding.encodeQueryComponent = false := by
    unfold shouldEscape
    rw [if_pos (Or.inr (Or.inr hc))]
  unfold escapeByte
  rw [if_neg (by omega), hse]
  rfl

theorem queryEscape_digits (s : GoString) (h : ∀ c ∈ s, 48 ≤ c ∧ c ≤ 57) : QueryEscape s = s := by
  induction s with
  | nil => rfl
  | cons c s ih =>
    have hs := ih (fun d hd => h d (List.mem_cons_of_mem _ hd))
    have hc := escapeByte_digit c (h c (List.mem_cons_self _ _))
    simp only [QueryEscape, escape, List.flatMap_cons] at hs ⊢
    rw [hs, hc]
    rfl

theorem itoaLoop_digits (fuel u : Nat) (acc : GoString) (h : ∀ c ∈ acc, 48 ≤ c ∧ c ≤ 57)
    (hu : u < 10 ^ fuel) : ∀ c ∈ itoaLoop fuel u acc, 48 ≤ c ∧ c ≤ 57 := by
  induction fuel generalizing u acc with
  | zero => simpa [itoaLoop] using h
  | succ fuel ih =>
    unfold itoaLoop
    split
    · apply ih
      · intro c hc
        rcases List.mem_cons.mp hc with rfl | hc
        · omega
        · exact h c hc
      · rw [pow_succ] at hu
        exact Nat.div_lt_of_lt_mul (by omega)
    · intro c hc
      rcases List.mem_cons.mp hc with rfl | hc
      · omega
      · exact h c hc

theorem itoa_digits (i : Nat) : ∀ c ∈ itoa i, 48 ≤ c ∧ c ≤ 57 := by
  apply itoaLoop_digits
  · simp
  · calc i < 10 ^ i := Nat.lt_pow_self (by norm_num) i
      _ ≤ 10 ^ (i + 1) := Nat.pow_le_pow_right (by norm_num) (by omega)

theorem queryEscape_partsKey (i : Nat) :
    QueryEscape (lit "parts." ++ itoa i) = lit "parts." ++ itoa i := by
  rw [queryEscape_append, queryEscape_digits _ (itoa_digits i)]
  congr 1

/-! ## `url.Values` -/

theorem sortStrings_perm (l : List GoString) : List.Perm (sortStrings l) l := by
  induction l with
  | nil => exact List.Perm.refl _
  | cons x xs ih =>
    have hins : ∀ ys : List GoString, List.Perm (insertSorted x ys) (x :: ys) := by
      intro ys
      induction ys with
      | nil => exact List.Perm.refl _
      | cons y ys ihy =>
        unfold insertSorted
        split
        · exact (List.Perm.cons y ihy).trans (List.Perm.swap x y ys)
        · exact List.Perm.refl _
    exact (hins _).trans (List.Perm.cons x ih)

theorem values_at_add (v : Values) (key value k : GoString) :
    Values.at (Values.Add v key value) k
      = if k = key then Values.at v k ++ [value] else Values.at v k := by
  induction v with
  | nil =>
    by_cases h : k = key
    · simp [Values.Add, Values.at, h]
    · simp [Values.Add, Values.at, h, Ne.symm h]
  | cons p rest ih =>
    obtain ⟨k0, vs⟩ := p
    unfold Values.Add
    by_cases h0 : k0 = key
    · rw [if_pos h0]
      by_cases h : k = key
      · simp [Values.at, h, h0]
      · have : ¬ k0 = k := by rw [h0]; exact Ne.symm h
        simp [Values.at, h, this]
    · rw [if_neg h0]
      by_cases h : k0 = k
      · have : ¬ k = key := by rw [← h]; exact h0
        simp [Values.at, h, this]
      · simp [Values.at, h, ih]

theorem values_keys_add (v : Values) (key value : GoString) :
    (Values.Add v key value).map Prod.fst
      = if key ∈ v.map Prod.fst then v.map Prod.fst else v.map Prod.fst ++ [key] := by
  induction v with
  | nil => simp [Values.Add]
  | cons p rest ih =>
    obtain ⟨k0, vs⟩ := p
    unfold Values.Add
    by_cases h0 : k0 = key
    · simp [h0]
    · rw [if_neg h0]
      simp only [List.map_cons, ih, List.mem_cons]
      by_cases h : key ∈ rest.map Prod.fst
      · simp [h]
      · simp [h, Ne.symm h0]

theorem values_nodup_add (v : Values) (key value : GoString) (h : (v.map Prod.fst).Nodup) :
    ((Values.Add v key value).map Prod.fst).Nodup := by
  rw [values_keys_add]
  split
  · exact h
  · rename_i hk
    exact List.Nodup.append h (List.nodup_singleton _) (by simpa using hk)

theorem values_pairs_add (v : Values) (key value : GoString) :
    List.Perm ((Values.Add v key value).flatMap fun p => p.2.map fun x => (p.1, x))
      ((v.flatMap fun p => p.2.map fun x => (p.1, x)) ++ [(key, value)]) := by
  induction v with
  | nil => simp [Values.Add]
  | cons p rest ih =>
    obtain ⟨k0, vs⟩ := p
    unfold Values.Add
    by_cases h0 : k0 = key
    · rw [if_pos h0]
      subst h0
      simp only [List.flatMap_cons, List.map_append, List.map_cons, List.map_nil,
        List.append_assoc]
      exact List.Perm.append_left _ List.perm_append_comm
    · rw [if_neg h0]
      simp only [List.flatMap_cons, List.append_assoc]
      exact List.Perm.append_left _ ih

theorem values_at_pairs (v : Values) (h : (v.map Prod.fst).Nodup) :
    ((v.map Prod.fst).flatMap fun k => (Values.at v k).map fun x => (k, x))
      = v.flatMap fun p => p.2.map fun x => (p.1, x) := by
  induction v with
  | nil => rfl
  | cons p rest ih =>
    obtain ⟨k0, vs⟩ := p
    simp only [List.map_cons, List.nodup_cons] at h
    simp only [List.map_cons, List.flatMap_cons, Values.at, if_true]
    congr 1
    rw [← ih h.2]
    apply List.flatMap_congr
    intro k hk
    have : ¬ k0 = k := fun e => h.1 (e ▸ hk)
    simp [this]

theorem addParts_pairs (ms : List GoString) (v : Values) (i : Nat) :
    List.Perm ((addParts v i ms).flatMap fun p => p.2.map fun x => (p.1, x))
      ((v.flatMap fun p => p.2.map fun x => (p.1, x))
        ++ (ms.enumFrom i).map fun p => (lit "parts." ++ itoa p.1, p.2)) := by
  induction ms generalizing v i with
  | nil => simp [addParts]
  | cons m ms ih =>
    simp only [addParts, List.enumFrom_cons, List.map_cons]
    refine (ih _ _).trans ?_
    refine (List.Perm.append_right _ (values_pairs_add v _ m)).trans ?_
    simp

theorem addParts_nodup (ms : List GoString) (v : Values) (i : Nat)
    (h : (v.map Prod.fst).Nodup) : ((addParts v i ms).map Prod.fst).Nodup := by
  induction ms generalizing v i with
  | nil => simpa [addParts] using h
  | cons m ms ih => exact ih _ _ (values_nodup_add v _ m h)

theorem makeValues_nodup (cfg : ConfigOption) : ((makeValues cfg).map Prod.fst).Nodup := by
  unfold makeValues
  apply addParts_nodup
  apply values_nodup_add
  apply values_nodup_add
  apply values_nodup_add
  exact List.nodup_nil

theorem makeValues_pairs (cfg : ConfigOption) :
    List.Perm ((makeValues cfg).flatMap fun p => p.2.map fun x => (p.1, x))
      ([(lit "mt", lit "regular"), (lit "pl", lit "true"), (lit "location", cfg.Location)]
        ++ cfg.Models.enum.map fun p => (lit "parts." ++ itoa p.1, p.2)) := by
  unfold makeValues
  refine (addParts_pairs _ _ _).trans ?_
  refine List.Perm.append_right _ ?_
  refine (values_pairs_add _ _ _).trans ?_
  refine (List.Perm.append_right _ ((values_pairs_add _ _ _).trans
    (List.Perm.append_right _ (values_pairs_add _ _ _)))).trans ?_
  simp [Values.Add]

theorem intercalate_glue (sep a b : GoString) (rest : List GoString) :
    sep.intercalate ((a ++ sep ++ b) :: rest) = sep.intercalate (a :: b :: rest) := by
  cases rest with
  | nil => simp [List.intercalate]
  | cons r rs => simp [List.intercalate]

theorem foldl_amp (es : List GoString) (buf : GoString) (hbuf : buf ≠ []) :
    es.foldl (fun buf e => (if 0 < buf.length then buf ++ [38] else buf) ++ e) buf
      = [38].intercalate (buf :: es) := by
  induction es generalizing buf with
  | nil => simp [List.intercalate]
  | cons e es ih =>
    have hlen : 0 < buf.length := List.length_pos.mpr hbuf
    rw [List.foldl_cons, if_pos hlen, ih _ (by simp [hbuf]), intercalate_glue]

theorem foldl_amp_nil (es : List GoString) (h : ∀ e ∈ es, e ≠ []) :
    es.foldl (fun buf e => (if 0 < buf.length then buf ++ [38] else buf) ++ e) []
      = [38].intercalate es := by
  cases es with
  | nil => simp [List.intercalate]
  | cons e es =>
    rw [List.foldl_cons]
    simp only [List.length_nil, lt_self_iff_false, if_false, List.nil_append]
    exact foldl_amp es e (h e (List.mem_cons_self _ _))

theorem encodeKey_eq (k : GoString) (vs : List GoString) (buf : GoString) :
    encodeKey (QueryEscape k) buf vs
      = (vs.map fun x => QueryEscape k ++ [61] ++ QueryEscape x).foldl
          (fun buf e => (if 0 < buf.length then buf ++ [38] else buf) ++ e) buf := by
  unfold encodeKey
  induction vs generalizing buf with
  | nil => rfl
  | cons x vs ih =>
    simp only [List.foldl_cons, List.map_cons]
    rw [ih]
    simp [List.append_assoc]

theorem encode_foldl (v : Values) (ks : List GoString) (buf : GoString) :
    ks.foldl (fun buf k => encodeKey (QueryEscape k) buf (Values.at v k)) buf
      = (ks.flatMap fun k => (Values.at v k).map fun x =>
            QueryEscape k ++ [61] ++ QueryEscape x).foldl
          (fun buf e => (if 0 < buf.length then buf ++ [38] else buf) ++ e) buf := by
  induction ks generalizing buf with
  | nil => rfl
  | cons k ks ih =>
    rw [List.foldl_cons, ih, List.flatMap_cons, List.foldl_append, encodeKey_eq]

theorem encode_eq_intercalate (v : Values) :
    Values.Encode v = [38].intercalate
      ((sortStrings (v.map Prod.fst)).flatMap fun k => (Values.at v k).map fun x =>
            QueryEscape k ++ [61] ++ QueryEscape x) := by
  unfold Values.Encode
  split
  · rename_i h
    have : v = [] := List.length_eq_zero.mp h
    subst this
    simp [sortStrings, List.intercalate]
  · rw [encode_foldl, foldl_amp_nil]
    intro e he
    simp only [List.mem_flatMap, List.mem_map] at he
    obtain ⟨k, _, x, _, rfl⟩ := he
    simp

theorem encode_entries_perm (v : Values) (h : (v.map Prod.fst).Nodup) :
    List.Perm
      ((sortStrings (v.map Prod.fst)).flatMap fun k => (Values.at v k).map fun x =>
            QueryEscape k ++ [61] ++ QueryEscape x)
      ((v.flatMap fun p => p.2.map fun x => (p.1, x)).map fun q =>
            QueryEscape q.1 ++ [61] ++ QueryEscape q.2) := by
  rw [← values_at_pairs v h]
  refine ((sortStrings_perm _).flatMap_right _).trans ?_
  rw [List.map_flatMap]
  simp [Function.comp_def]

theorem expected_entries_eq (cfg : ConfigOption) :
    ([(lit "mt", lit "regular"), (lit "pl", lit "true"), (lit "location", cfg.Location)]
        ++ cfg.Models.enum.map fun p => (lit "parts." ++ itoa p.1, p.2)).map
      (fun q => QueryEscape q.1 ++ [61] ++ QueryEscape q.2)
      = expectedQueryEntries cfg := by
  have h1 : QueryEscape (lit "mt") ++ [61] ++ QueryEscape (lit "regular") = lit "mt=regular" := by
    decide
  have h2 : QueryEscape (lit "pl") ++ [61] ++ QueryEscape (lit "true") = lit "pl=true" := by
    decide
  have h3 : QueryEscape (lit "location") ++ [61] = lit "location=" := by decide
  have h4 : ∀ i : Nat, QueryEscape (lit "parts." ++ itoa i) ++ [61]
      = lit "parts." ++ itoa i ++ lit "=" := by
    intro i; rw [queryEscape_partsKey]; rfl
  simp only [expectedQueryEntries, List.map_append, List.map_cons, List.map_nil, List.map_map,
    Function.comp_def, h1, h2, h3, h4]

theorem makeUrl_entries_perm (cfg : ConfigOption) :
    List.Perm
      ((sortStrings ((makeValues cfg).map Prod.fst)).flatMap fun k =>
        (Values.at (makeValues cfg) k).map fun x => QueryEscape k ++ [61] ++ QueryEscape x)
      (expectedQueryEntries cfg) := by
  rw [← expected_entries_eq]
  exact (encode_entries_perm _ (makeValues_nodup cfg)).trans ((makeValues_pairs cfg).map _)

theorem expected_entries_no_amp (cfg : ConfigOption) :
    ∀ e ∈ expectedQueryEntries cfg, (38 : Nat) ∉ e := by
  intro e he
  rw [← expected_entries_eq] at he
  simp only [List.mem_map] at he
  obtain ⟨q, _, rfl⟩ := he
  intro h
  simp only [List.mem_append, List.mem_singleton] at h
  rcases h with (h | h) | h
  · exact (queryEscape_no_separator _ _ h).1 rfl
  · omega
  · exact (queryEscape_no_separator _ _ h).1 rfl

theorem expected_entries_parts_count (cfg : ConfigOption) :
    (expectedQueryEntries cfg).countP (fun e => HasPrefix e (lit "parts."))
      = cfg.Models.length := by
  have h1 : HasPrefix (lit "mt=regular") (lit "parts.") = false := by decide
  have h2 : HasPrefix (lit "pl=true") (lit "parts.") = false := by decide
  have h3 : HasPrefix (lit "location=" ++ QueryEscape cfg.Location) (lit "parts.") = false := by
    rfl
  have h4 : ∀ l : List (Nat × GoString),
      (l.map fun p => lit "parts." ++ itoa p.1 ++ lit "=" ++ QueryEscape p.2).countP
        (fun e => HasPrefix e (lit "parts.")) = l.length := by
    intro l
    rw [List.countP_eq_length.mpr, List.length_map]
    intro e he
    simp only [List.mem_map] at he
    obtain ⟨p, _, rfl⟩ := he
    exact (hasPrefix_iff _ _).mpr ⟨itoa p.1 ++ lit "=" ++ QueryEscape p.2, by simp⟩
  unfold expectedQueryEntries
  rw [List.countP_append, h4]
  simp [List.countP_cons, h1, h2, h3]

/-- C7: `makeUrl` returns `SearchUrl`, "?" and a query string that splits at
"&" into exactly the texts `mt=regular`, `pl=true`, `location=` followed by the
query-escaped location, and for each model, at 0-based position `i`, `parts.i=`
followed by the query-escaped model (in some order, none twice and no other
one); the number of `parts.` pairs is the number of models. -/
theorem makeUrl_query (cfg : ConfigOption) :
    ∃ q : GoString,
      makeUrl cfg = SearchUrl ++ lit "?" ++ q ∧
      q = (lit "&").intercalate (q.splitOn 38) ∧
      List.Perm (q.splitOn 38) (expectedQueryEntries cfg) ∧
      (q.splitOn 38).countP (fun e => HasPrefix e (lit "parts.")) = cfg.Models.length := by
  have hperm := makeUrl_entries_perm cfg
  have hsplit : (Values.Encode (makeValues cfg)).splitOn 38
      = (sortStrings ((makeValues cfg).map Prod.fst)).flatMap fun k =>
        (Values.at (makeValues cfg) k).map fun x => QueryEscape k ++ [61] ++ QueryEscape x := by
    rw [encode_eq_intercalate]
    apply List.splitOn_intercalate
    · intro e he
      exact expected_entries_no_amp cfg e (hperm.mem_iff.mp he)
    · intro hnil
      rw [hnil] at hperm
      have := hperm.length_eq
      simp [expectedQueryEntries] at this
  refine ⟨Values.Encode (makeValues cfg), rfl, ?_, ?_, ?_⟩
  · exact (List.intercalate_splitOn (Values.Encode (makeValues cfg)) 38).symm
  · rw [hsplit]; exact hperm
  · rw [hsplit, hperm.countP_eq]
    exact expected_entries_parts_count cfg

theorem ReqSearch_messages_witness :
    (collect demoResponse.Body.Content.PickupMessage.Stores).1
      = inStockMessages demoResponse.Body.Content.PickupMessage.Stores ∧
    ReqSearch demoEnv demoCfg =
      { trace :=
          [Event.log (lit "[I] 开始查询苹果接口. 查询位置:" ++ demoCfg.Location),
            Event.newRequest (makeUrl demoCfg), Event.clientDo (some (makeUrl demoCfg)),
            Event.readAll, Event.jsonUnmarshal (lit "(body)")]
          ++ notInStockLogs demoResponse.Body.Content.PickupMessage.Stores
          ++ sendNotificationToBarkApp demoEnv demoCfg
              (inStockMessages demoResponse.Body.Content.PickupMessage.Stores),
        outcome := Outcome.returned } ∧
    (inStockMessages demoResponse.Body.Content.PickupMessage.Stores).length
      = (demoResponse.Body.Content.PickupMessage.Stores.flatMap
            fun store => store.PartsAvailability).countP
          (fun info => hasStockOffline info.PickupSearchQuote) :=
  ReqSearch_messages demoEnv demoCfg { Body := .ok (lit "(body)") } (lit "(body)") demoResponse
    rfl rfl rfl rfl

set_option maxRecDepth 8000 in
theorem demo_cycle_sends :
    getUrls (ReqSearch demoEnv demoCfg).trace
      = [lit ("http://n.example/push/iPhone 15/取货时间:Available, pick up today"
          ++ " 地点:Store5?sound=minuet")] := by
  decide

/-! ## Failures in one poll cycle -/

theorem ReqSearch_transport_failure (env : Env) (cfg : ConfigOption) (err : GoError)
    (hreq : env.NewRequest (makeUrl cfg) = none)
    (hdo : env.Do (makeUrl cfg) = .error err) :
    ReqSearch env cfg =
      { trace :=
          [Event.log (lit "[I] 开始查询苹果接口. 查询位置:" ++ cfg.Location),
            Event.newRequest (makeUrl cfg), Event.clientDo (some (makeUrl cfg)),
            Event.log (lit "[E] do request failed. url:" ++ makeUrl cfg ++ lit ", err:" ++ err)],
        outcome := Outcome.returned } := by
  simp only [ReqSearch, hreq, hdo]
  simp

theorem ReqSearch_parse_failure (env : Env) (cfg : ConfigOption) (resp : Response)
    (err : GoError)
    (hreq : env.NewRequest (makeUrl cfg) = none)
    (hdo : env.Do (makeUrl cfg) = .ok resp)
    (hparse : (unMarshalResp env.Unmarshal resp).1 = .error err) :
    ReqSearch env cfg =
      { trace :=
          [Event.log (lit "[I] 开始查询苹果接口. 查询位置:" ++ cfg.Location),
            Event.newRequest (makeUrl cfg), Event.clientDo (some (makeUrl cfg))]
          ++ (unMarshalResp env.Unmarshal resp).2
          ++ [Event.log (lit "[E] unMarshalResp failed. err:" ++ err)],
        outcome := Outcome.returned } ∧
    getUrls (ReqSearch env cfg).trace = [] := by
  have key : ReqSearch env cfg =
      { trace :=
          [Event.log (lit "[I] 开始查询苹果接口. 查询位置:" ++ cfg.Location),
            Event.newRequest (makeUrl cfg), Event.clientDo (some (makeUrl cfg))]
          ++ (unMarshalResp env.Unmarshal resp).2
          ++ [Event.log (lit "[E] unMarshalResp failed. err:" ++ err)],
        outcome := Outcome.returned } := by
    simp only [ReqSearch, hreq, hdo]
    rcases hu : unMarshalResp env.Unmarshal resp with ⟨r, t2⟩
    rw [hu] at hparse
    simp only at hparse
    subst hparse
    simp
  refine ⟨key, ?_⟩
  rw [key]
  have ht : getUrls (unMarshalResp env.Unmarshal resp).2 = [] := by
    unfold unMarshalResp
    cases resp.Body with
    | error e => simp [getUrls]
    | ok data => simp only []; split <;> simp [getUrls]
  simp only [getUrls_append, ht]
  simp [getUrls]

theorem ReqSearch_construction_failure (env : Env) (cfg : ConfigOption) (err : GoError)
    (hreq : env.NewRequest (makeUrl cfg) = some err) :
    ReqSearch env cfg =
      { trace :=
          [Event.log (lit "[I] 开始查询苹果接口. 查询位置:" ++ cfg.Location),
            Event.newRequest (makeUrl cfg),
            Event.log (lit "[E] new request failed. err:" ++ err), Event.clientDo none],
        outcome := Outcome.panicked } := by
  simp only [ReqSearch, hreq]
  simp

set_option maxRecDepth 8000 in
/-- The missing `return` of apple.go:62-64, in an environment that breaks the
guarantee of `NewRequestWithContext`: were building the request to fail, the
error would be logged, `cli.Do` called with the nil request, and the cycle
would end in a panic. -/
theorem ReqSearch_unguarded_nil_request :
    ReqSearch
        { NewRequest := fun _ => some (lit "net/http: invalid request"),
          Do := fun _ => .error [], Unmarshal := fun _ => .error [], Get := fun _ _ => none }
        { Location := lit "10001", Models := [lit "MODEL_A"], SearchInterval := 60,
          NotifyUrl := [lit "http://n.example/push"] }
      = { trace :=
            [Event.log (lit "[I] 开始查询苹果接口. 查询位置:10001"),
              Event.newRequest (lit ("https://www.apple.com/us-hed/shop/fulfillment-messages"
                ++ "?location=10001&mt=regular&parts.0=MODEL_A&pl=true")),
              Event.log (lit "[E] new request failed. err:net/http: invalid request"),
              Event.clientDo none],
          outcome := Outcome.panicked } := by
  decide

/-! ## The parser accepts only texts of the grammar -/

theorem skipWs_split (s : List Nat) : ∃ w, IsWs w ∧ s = w ++ skipWs s := by
  refine ⟨s.takeWhile isWs, ?_, ?_⟩
  · intro c hc
    exact List.mem_takeWhile_imp hc
  · exact (List.takeWhile_append_dropWhile isWs s).symm

theorem skipWs_head (s : List Nat) (d : Nat) (r : List Nat) (h : skipWs s = d :: r) :
    isWs d = false := by
  have := List.head_dropWhile_not isWs s
  unfold skipWs at h
  rw [h] at this
  simpa using this

theorem scanString_sound_aux (n : Nat) :
    ∀ s : List Nat, s.length ≤ n →
      ∀ raw r, scanString s = some (raw, r) → IsStringBody raw ∧ s = raw ++ 34 :: r := by
  induction n using Nat.strong_induction_on with
  | _ n ih =>
    intro s hn raw r h
    cases s with
    | nil => simp [scanString] at h
    | cons c rest =>
      unfold scanString at h
      by_cases h34 : c = 34
      · rw [if_pos h34] at h
        cases h
        exact ⟨IsStringBody.nil, by rw [h34]; rfl⟩
      · rw [if_neg h34] at h
        by_cases h92 : c = 92
        · rw [if_pos h92] at h
          cases rest with
          | nil => simp at h
          | cons e rest1 =>
            simp only at h
            by_cases hu : e = 117
            · rw [if_pos hu] at h
              match rest1, h with
              | h1 :: h2 :: h3 :: h4 :: rest2, h =>
                simp only at h
                by_cases hx : (isHex h1 && isHex h2 && isHex h3 && isHex h4) = true
                · rw [if_pos hx] at h
                  simp only [Option.map_eq_some', Prod.mk.injEq] at h
                  obtain ⟨⟨a, b⟩, hab, rfl, rfl⟩ := h
                  have hlen : rest2.length < n := by simp at hn; omega
                  obtain ⟨hb, hs⟩ := ih _ hlen rest2 (le_refl _) a b hab
                  simp only [Bool.and_eq_true] at hx
                  refine ⟨IsStringBody.uni _ _ _ _ _ hx.1.1.1 hx.1.1.2 hx.1.2 hx.2 hb, ?_⟩
                  rw [h92, hu, hs]; rfl
                · rw [if_neg hx] at h
                  cases h
              | [], h => simp at h
              | [_], h => simp at h
              | [_, _], h => simp at h
              | [_, _, _], h => simp at h
            · rw [if_neg hu] at h
              by_cases he : isSimpleEscape e = true
              · rw [if_pos he] at h
                simp only [Option.map_eq_some', Prod.mk.injEq] at h
                obtain ⟨⟨a, b⟩, hab, rfl, rfl⟩ := h
                have hlen : rest1.length < n := by simp at hn; omega
                obtain ⟨hb, hs⟩ := ih _ hlen rest1 (le_refl _) a b hab
                refine ⟨IsStringBody.esc _ _ he hb, ?_⟩
                rw [h92, hs]; rfl
              · rw [if_neg he] at h
                cases h
        · rw [if_neg h92] at h
          by_cases hc : c < 32
          · rw [if_pos hc] at h
            cases h
          · rw [if_neg hc] at h
            simp only [Option.map_eq_some', Prod.mk.injEq] at h
            obtain ⟨⟨a, b⟩, hab, rfl, rfl⟩ := h
            have hlen : rest.length < n := by simp at hn; omega
            obtain ⟨hb, hs⟩ := ih _ hlen rest (le_refl _) a b hab
            refine ⟨IsStringBody.plain _ _ (by omega) h34 h92 hb, ?_⟩
            rw [hs]; rfl

theorem scanString_sound (s raw r : List Nat) (h : scanString s = some (raw, r)) :
    IsStringBody raw ∧ s = raw ++ 34 :: r :=
  scanString_sound_aux s.length s (le_refl _) raw r h

theorem scanString_complete (raw : List Nat) (h : IsStringBody raw) (r : List Nat) :
    scanString (raw ++ 34 :: r) = some (raw, r) := by
  induction h with
  | nil => unfold scanString; simp
  | plain c s h32 h34 h92 _ ih =>
    simp only [List.cons_append]
    unfold scanString
    rw [if_neg h34, if_neg h92, if_neg (by omega), ih]
    rfl
  | esc e s he _ ih =>
    have hu : e ≠ 117 := by
      intro h; subst h; simp [isSimpleEscape] at he
    simp only [List.cons_append]
    unfold scanString
    simp [hu, he, ih]
  | uni h1 h2 h3 h4 s hh1 hh2 hh3 hh4 _ ih =>
    simp only [List.cons_append]
    unfold scanString
    simp [hh1, hh2, hh3, hh4, ih]

theorem takeWhile_append_headNot (p : Nat → Bool) (ds r : List Nat)
    (hds : ∀ d ∈ ds, p d = true) (hr : HeadNot p r) :
    (ds ++ r).takeWhile p = ds ∧ (ds ++ r).dropWhile p = r := by
  induction ds with
  | nil =>
    cases r with
    | nil => simp
    | cons c r =>
      have : p c = false := hr c (by simp)
      simp [List.takeWhile, List.dropWhile, this]
  | cons d ds ih =>
    have hd : p d = true := hds d (List.mem_cons_self _ _)
    have := ih (fun x hx => hds x (List.mem_cons_of_mem _ hx))
    simp [List.takeWhile, List.dropWhile, hd, this.1, this.2]

theorem takeWhile_digits (r : List Nat) : ∀ d ∈ r.takeWhile isDigit, isDigit d = true :=
  fun _ hd => List.mem_takeWhile_imp hd

theorem scanInt_sound (s t r : List Nat) (h : scanInt s = some (t, r)) :
    IsInt t ∧ s = t ++ r := by
  cases s with
  | nil => simp [scanInt] at h
  | cons c s =>
    simp only [scanInt] at h
    by_cases h0 : c = 48
    · rw [if_pos h0] at h
      cases h
      exact ⟨Or.inl rfl, by rw [h0]; rfl⟩
    · rw [if_neg h0] at h
      by_cases h1 : 49 ≤ c ∧ c ≤ 57
      · rw [if_pos h1] at h
        cases h
        refine ⟨Or.inr ⟨c, _, rfl, h1, takeWhile_digits s⟩, ?_⟩
        simp [List.takeWhile_append_dropWhile]
      · rw [if_neg h1] at h
        cases h

theorem scanInt_complete (t r : List Nat) (h : IsInt t) (hr : HeadNot isDigit r) :
    scanInt (t ++ r) = some (t, r) := by
  rcases h with rfl | ⟨c, ds, rfl, hc, hds⟩
  · simp [scanInt]
  · have := takeWhile_append_headNot isDigit ds r hds hr
    have h48 : c ≠ 48 := by omega
    simp only [List.cons_append, scanInt]
    rw [if_neg h48, if_pos hc, this.1, this.2]

theorem scanFrac_sound (s t r : List Nat) (h : scanFrac s = some (t, r)) :
    IsFrac t ∧ s = t ++ r := by
  cases s with
  | nil => simp [scanFrac] at h; obtain ⟨rfl, rfl⟩ := h; exact ⟨Or.inl rfl, rfl⟩
  | cons c s =>
    simp only [scanFrac] at h
    by_cases h0 : c = 46
    · rw [if_pos h0] at h
      by_cases h1 : s.takeWhile isDigit = []
      · rw [if_pos h1] at h; cases h
      · rw [if_neg h1] at h
        cases h
        refine ⟨Or.inr ⟨_, rfl, h1, takeWhile_digits s⟩, ?_⟩
        simp [List.takeWhile_append_dropWhile, h0]
    · rw [if_neg h0] at h
      cases h
      exact ⟨Or.inl rfl, rfl⟩

theorem scanFrac_complete (t r : List Nat) (h : IsFrac t)
    (hr : HeadNot (fun c => isDigit c || decide (c = 46)) r) :
    scanFrac (t ++ r) = some (t, r) := by
  rcases h with rfl | ⟨ds, rfl, hne, hds⟩
  · cases r with
    | nil => rfl
    | cons c r =>
      have := hr c (by simp)
      simp only [Bool.or_eq_false_iff, decide_eq_false_iff_not] at this
      simp [scanFrac, this.2]
  · have hr' : HeadNot isDigit r := by
      intro c hc
      have := hr c hc
      simp only [Bool.or_eq_false_iff] at this
      exact this.1
    have := takeWhile_append_headNot isDigit ds r hds hr'
    simp only [List.cons_append, scanFrac, if_true]
    rw [this.1, this.2, if_neg hne]

theorem scanExpSign_sound (s : List Nat) :
    s = (scanExpSign s).1 ++ (scanExpSign s).2 ∧
      ((scanExpSign s).1 = [] ∨ (scanExpSign s).1 = [43] ∨ (scanExpSign s).1 = [45]) := by
  cases s with
  | nil => simp [scanExpSign]
  | cons d r =>
    simp only [scanExpSign]
    by_cases h : d = 43 ∨ d = 45
    · rw [if_pos h]
      rcases h with rfl | rfl <;> simp
    · rw [if_neg h]
      simp

theorem scanExpSign_complete (sgn ds r : List Nat)
    (hs : sgn = [] ∨ sgn = [43] ∨ sgn = [45]) (hds : IsDigits ds) :
    scanExpSign (sgn ++ ds ++ r) = (sgn, ds ++ r) := by
  rcases hs with rfl | rfl | rfl
  · obtain ⟨hne, hd⟩ := hds
    cases ds with
    | nil => exact absurd rfl hne
    | cons d ds =>
      have := hd d (List.mem_cons_self _ _)
      simp only [isDigit, decide_eq_true_eq] at this
      have h : ¬ (d = 43 ∨ d = 45) := by omega
      simp only [List.nil_append, List.cons_append, scanExpSign]
      rw [if_neg h]
  · simp [scanExpSign]
  · simp [scanExpSign]

theorem scanExp_sound (s t r : List Nat) (h : scanExp s = some (t, r)) :
    IsExp t ∧ s = t ++ r := by
  cases s with
  | nil => simp [scanExp] at h; obtain ⟨rfl, rfl⟩ := h; exact ⟨Or.inl rfl, rfl⟩
  | cons c s =>
    simp only [scanExp] at h
    by_cases h0 : c = 101 ∨ c = 69
    · rw [if_pos h0] at h
      by_cases h1 : (scanExpSign s).2.takeWhile isDigit = []
      · rw [if_pos h1] at h; cases h
      · rw [if_neg h1] at h
        cases h
        obtain ⟨hs, hsg⟩ := scanExpSign_sound s
        refine ⟨Or.inr ⟨c, _, _, rfl, h0, hsg, h1, takeWhile_digits _⟩, ?_⟩
        simp only [List.cons_append, List.append_assoc, List.takeWhile_append_dropWhile]
        rw [← hs]
    · rw [if_neg h0] at h
      cases h
      exact ⟨Or.inl rfl, rfl⟩

theorem scanExp_complete (t r : List Nat) (h : IsExp t)
    (hr : HeadNot (fun c => isDigit c || decide (c = 101 ∨ c = 69)) r) :
    scanExp (t ++ r) = some (t, r) := by
  rcases h with rfl | ⟨e, sgn, ds, rfl, he, hs, hds⟩
  · cases r with
    | nil => rfl
    | cons c r =>
      have := hr c (by simp)
      simp only [Bool.or_eq_false_iff, decide_eq_false_iff_not] at this
      simp only [List.nil_append, scanExp]
      rw [if_neg this.2]
  · have hr' : HeadNot isDigit r := by
      intro c hc
      have := hr c hc
      simp only [Bool.or_eq_false_iff] at this
      exact this.1
    have htd := takeWhile_append_headNot isDigit ds r hds.2 hr'
    have hsg := scanExpSign_complete sgn ds r hs hds
    simp only [List.cons_append, scanExp]
    rw [if_pos he, hsg]
    simp only
    rw [htd.1, htd.2, if_neg hds.1]

theorem scanSign_sound (s : List Nat) :
    s = (scanSign s).1 ++ (scanSign s).2 ∧ ((scanSign s).1 = [] ∨ (scanSign s).1 = [45]) := by
  cases s with
  | nil => simp [scanSign]
  | cons d r =>
    simp only [scanSign]
    by_cases h : d = 45
    · rw [if_pos h]; simp [h]
    · rw [if_neg h]; simp

theorem isInt_head (i : List Nat) (h : IsInt i) :
    ∃ c r, i = c :: r ∧ isDigit c = true := by
  rcases h with rfl | ⟨c, ds, rfl, hc, _⟩
  · exact ⟨48, [], rfl, by decide⟩
  · exact ⟨c, ds, rfl, by simp [isDigit]; omega⟩

theorem scanSign_complete (sgn i r : List Nat) (hs : sgn = [] ∨ sgn = [45]) (hi : IsInt i) :
    scanSign (sgn ++ i ++ r) = (sgn, i ++ r) := by
  rcases hs with rfl | rfl
  · obtain ⟨c, i', rfl, hc⟩ := isInt_head i hi
    simp only [isDigit, decide_eq_true_eq] at hc
    have h : c ≠ 45 := by omega
    simp only [List.nil_append, List.cons_append, scanSign]
    rw [if_neg h]
  · simp [scanSign]

theorem scanNumber_sound (s t r : List Nat) (h : scanNumber s = some (t, r)) :
    IsNumber t ∧ s = t ++ r := by
  unfold scanNumber at h
  obtain ⟨hs, hsg⟩ := scanSign_sound s
  rcases hi : scanInt (scanSign s).2 with _ | ⟨i, s2⟩
  · rw [hi] at h; cases h
  · rw [hi] at h
    simp only at h
    rcases hf : scanFrac s2 with _ | ⟨f, s3⟩
    · rw [hf] at h; cases h
    · rw [hf] at h
      simp only at h
      rcases he : scanExp s3 with _ | ⟨e, s4⟩
      · rw [he] at h; cases h
      · rw [he] at h
        simp only [Option.some.injEq, Prod.mk.injEq] at h
        obtain ⟨rfl, rfl⟩ := h
        obtain ⟨hI, h1⟩ := scanInt_sound _ _ _ hi
        obtain ⟨hF, h2⟩ := scanFrac_sound _ _ _ hf
        obtain ⟨hE, h3⟩ := scanExp_sound _ _ _ he
        refine ⟨⟨_, i, f, e, rfl, hsg, hI, hF, hE⟩, ?_⟩
        rw [List.append_assoc, List.append_assoc, List.append_assoc, ← h3, ← h2, ← h1, ← hs]

theorem isFrac_head (f : List Nat) (h : IsFrac f) : f = [] ∨ ∃ r, f = 46 :: r := by
  rcases h with rfl | ⟨ds, rfl, _⟩
  · exact Or.inl rfl
  · exact Or.inr ⟨ds, rfl⟩

theorem isExp_head (e : List Nat) (h : IsExp e) :
    e = [] ∨ ∃ c r, e = c :: r ∧ (c = 101 ∨ c = 69) := by
  rcases h with rfl | ⟨c, sgn, ds, rfl, hc, _⟩
  · exact Or.inl rfl
  · exact Or.inr ⟨c, _, rfl, hc⟩

theorem scanNumber_complete (t r : List Nat) (h : IsNumber t) (hr : HeadNot isNumberTail r) :
    scanNumber (t ++ r) = some (t, r) := by
  obtain ⟨sgn, i, f, e, rfl, hs, hi, hf, he⟩ := h
  have hr1 : ∀ c ∈ r.head?, isDigit c = false ∧ c ≠ 46 ∧ c ≠ 101 ∧ c ≠ 69 := by
    intro c hc
    have := hr c hc
    simp only [isNumberTail, Bool.or_eq_false_iff, decide_eq_false_iff_not] at this
    exact ⟨this.1, by omega, by omega, by omega⟩
  have hE : scanExp (e ++ r) = some (e, r) := by
    apply scanExp_complete _ _ he
    intro c hc
    have := hr1 c hc
    simp [this.1, this.2.2.1, this.2.2.2]
  have hF : scanFrac (f ++ (e ++ r)) = some (f, e ++ r) := by
    apply scanFrac_complete _ _ hf
    intro c hc
    rcases isExp_head e he with rfl | ⟨x, e', rfl, hx⟩
    · have := hr1 c (by simpa using hc)
      simp [this.1, this.2.1]
    · simp only [List.cons_append, List.head?_cons, Option.mem_def, Option.some.injEq] at hc
      subst hc
      rcases hx with rfl | rfl <;> decide
  have hI : scanInt (i ++ (f ++ (e ++ r))) = some (i, f ++ (e ++ r)) := by
    apply scanInt_complete _ _ hi
    intro c hc
    rcases isFrac_head f hf with rfl | ⟨f', rfl⟩
    · rcases isExp_head e he with rfl | ⟨x, e', rfl, hx⟩
      · exact (hr1 c (by simpa using hc)).1
      · simp only [List.nil_append, List.cons_append, List.head?_cons, Option.mem_def,
          Option.some.injEq] at hc
        subst hc
        rcases hx with rfl | rfl <;> decide
    · simp only [List.cons_append, List.head?_cons, Option.mem_def, Option.some.injEq] at hc
      subst hc
      decide
  have hS := scanSign_complete sgn i (f ++ (e ++ r)) hs hi
  unfold scanNumber
  have hre : sgn ++ i ++ f ++ e ++ r = sgn ++ i ++ (f ++ (e ++ r)) := by
    simp [List.append_assoc]
  rw [hre, hS]
  simp only
  rw [hI]
  simp only
  rw [hF]
  simp only
  rw [hE]

theorem hasPrefix_drop (r p : List Nat) (h : HasPrefix r p = true) :
    r = p ++ r.drop p.length := by
  obtain ⟨t, rfl⟩ := (hasPrefix_iff r p).mp h
  simp

theorem parseValue_zero (s : List Nat) : parseValue 0 s = none := by
  rw [parseValue]

theorem parseElems_zero (s : List Nat) : parseElems 0 s = none := by
  rw [parseElems]

theorem parseMembers_zero (s : List Nat) : parseMembers 0 s = none := by
  rw [parseMembers]

theorem parse_sound (fuel : Nat) :
    (∀ s j r, parseValue fuel s = some (j, r) → ∃ t, s = t ++ r ∧ Denotes (Node.val j) t) ∧
    (∀ s js r, parseElems fuel s = some (js, r) →
      ∃ t, s = t ++ 93 :: r ∧ ∀ w, IsWs w → Denotes (Node.elems js) (w ++ t)) ∧
    (∀ s ms r, parseMembers fuel s = some (ms, r) →
      ∃ t, s = t ++ 125 :: r ∧ ∀ w, IsWs w → Denotes (Node.members ms) (w ++ t)) := by
  induction fuel with
  | zero =>
    refine ⟨?_, ?_, ?_⟩
    · intro s j r h; rw [parseValue_zero] at h; cases h
    · intro s js r h; rw [parseElems_zero] at h; cases h
    · intro s ms r h; rw [parseMembers_zero] at h; cases h
  | succ fuel ih =>
    obtain ⟨ihV, ihE, ihM⟩ := ih
    refine ⟨?_, ?_, ?_⟩
    · intro s j r h
      unfold parseValue at h
      cases s with
      | nil => cases h
      | cons c s =>
        simp only at h
        obtain ⟨w, hw, hsw⟩ := skipWs_split s
        split_ifs at h with h1 h2 h3 h4 h5 h6 h7 h8 h9 h10
        · -- object
          subst h1
          rcases hk : skipWs s with _ | ⟨d, r1⟩
          · rw [hk] at h; cases h
          · rw [hk] at h hsw
            simp only at h
            split_ifs at h with hd
            · cases h
              subst hd
              exact ⟨123 :: w ++ [125], by rw [hsw]; simp, Denotes.objEmpty w hw⟩
            · simp only [Option.map_eq_some', Prod.mk.injEq] at h
              obtain ⟨⟨ms, r'⟩, hm, rfl, rfl⟩ := h
              obtain ⟨t, ht, hden⟩ := ihM _ _ _ hm
              refine ⟨123 :: (w ++ t) ++ [125], ?_, Denotes.obj ms _ (hden w hw)⟩
              rw [hsw, ht]; simp
        · -- array
          subst h2
          rcases hk : skipWs s with _ | ⟨d, r1⟩
          · rw [hk] at h; cases h
          · rw [hk] at h hsw
            simp only at h
            split_ifs at h with hd
            · cases h
              subst hd
              exact ⟨91 :: w ++ [93], by rw [hsw]; simp, Denotes.arrEmpty w hw⟩
            · simp only [Option.map_eq_some', Prod.mk.injEq] at h
              obtain ⟨⟨js, r'⟩, hm, rfl, rfl⟩ := h
              obtain ⟨t, ht, hden⟩ := ihE _ _ _ hm
              refine ⟨91 :: (w ++ t) ++ [93], ?_, Denotes.arr js _ (hden w hw)⟩
              rw [hsw, ht]; simp
        · -- string
          subst h3
          simp only [Option.map_eq_some', Prod.mk.injEq] at h
          obtain ⟨⟨raw, r'⟩, hm, rfl, rfl⟩ := h
          obtain ⟨hb, hs⟩ := scanString_sound _ _ _ hm
          exact ⟨34 :: raw ++ [34], by rw [hs]; simp, Denotes.str raw hb⟩
        · -- null
          subst h4
          cases h
          refine ⟨lit "null", ?_, Denotes.null⟩
          have := hasPrefix_drop s (lit "ull") h5
          conv_lhs => rw [this]
          rfl
        · -- true
          subst h6
          cases h
          refine ⟨lit "true", ?_, Denotes.true⟩
          have := hasPrefix_drop s (lit "rue") h7
          conv_lhs => rw [this]
          rfl
        · -- false
          subst h8
          cases h
          refine ⟨lit "false", ?_, Denotes.false⟩
          have := hasPrefix_drop s (lit "alse") h9
          conv_lhs => rw [this]
          rfl
        · -- number
          simp only [Option.map_eq_some', Prod.mk.injEq] at h
          obtain ⟨⟨t, r'⟩, hm, rfl, rfl⟩ := h
          obtain ⟨hn, hs⟩ := scanNumber_sound _ _ _ hm
          exact ⟨t, hs, Denotes.number t hn⟩
    · intro s js r h
      unfold parseElems at h
      rcases hv : parseValue fuel s with _ | ⟨j, r0⟩
      · rw [hv] at h; cases h
      · rw [hv] at h
        simp only at h
        obtain ⟨t, ht, hden⟩ := ihV _ _ _ hv
        obtain ⟨w2, hw2, hsw⟩ := skipWs_split r0
        rcases hk : skipWs r0 with _ | ⟨d, r1⟩
        · rw [hk] at h; cases h
        · rw [hk] at h hsw
          simp only at h
          split_ifs at h with hd1 hd2
          · simp only [Option.map_eq_some', Prod.mk.injEq] at h
            obtain ⟨⟨js', r'⟩, hm, rfl, rfl⟩ := h
            obtain ⟨t', ht', hden'⟩ := ihE _ _ _ hm
            obtain ⟨w3, hw3, hsw3⟩ := skipWs_split r1
            refine ⟨t ++ w2 ++ 44 :: (w3 ++ t'), ?_, ?_⟩
            · rw [ht, hsw, hd1, hsw3, ht']; simp
            · intro w hw
              have := Denotes.elemsCons w j t w2 js' (w3 ++ t') hw hden hw2 (hden' w3 hw3)
              simpa [List.append_assoc] using this
          · cases h
            refine ⟨t ++ w2, ?_, ?_⟩
            · rw [ht, hsw, hd2]; simp
            · intro w hw
              have := Denotes.elemsOne w j t w2 hw hden hw2
              simpa [List.append_assoc] using this
    · intro s ms r h
      unfold parseMembers at h
      cases s with
      | nil => cases h
      | cons q s =>
        simp only at h
        split_ifs at h with hq
        subst hq
        rcases hk : scanString s with _ | ⟨key, r1⟩
        · rw [hk] at h; cases h
        · rw [hk] at h
          simp only at h
          obtain ⟨hkey, hs⟩ := scanString_sound _ _ _ hk
          obtain ⟨w2, hw2, hsw2⟩ := skipWs_split r1
          rcases hk2 : skipWs r1 with _ | ⟨d, r2⟩
          · rw [hk2] at h; cases h
          · rw [hk2] at h hsw2
            simp only at h
            split_ifs at h with hd
            subst hd
            obtain ⟨w3, hw3, hsw3⟩ := skipWs_split r2
            rcases hv : parseValue fuel (skipWs r2) with _ | ⟨j, r3⟩
            · rw [hv] at h; cases h
            · rw [hv] at h
              simp only at h
              obtain ⟨t, ht, hden⟩ := ihV _ _ _ hv
              obtain ⟨w4, hw4, hsw4⟩ := skipWs_split r3
              rcases hk4 : skipWs r3 with _ | ⟨d1, r4⟩
              · rw [hk4] at h; cases h
              · rw [hk4] at h hsw4
                simp only at h
                split_ifs at h with hd1 hd2
                · simp only [Option.map_eq_some', Prod.mk.injEq] at h
                  obtain ⟨⟨ms', r'⟩, hm, rfl, rfl⟩ := h
                  obtain ⟨t', ht', hden'⟩ := ihM _ _ _ hm
                  obtain ⟨w5, hw5, hsw5⟩ := skipWs_split r4
                  refine ⟨34 :: key ++ 34 :: w2 ++ 58 :: w3 ++ t ++ w4 ++ 44 :: (w5 ++ t'),
                    ?_, ?_⟩
                  · rw [hs, hsw2, hsw3, ht, hsw4, hd1, hsw5, ht']; simp
                  · intro w hw
                    have := Denotes.membersCons w key w2 w3 j t w4 ms' (w5 ++ t') hw hkey hw2 hw3
                      hden hw4 (hden' w5 hw5)
                    simpa [List.append_assoc] using this
                · cases h
                  refine ⟨34 :: key ++ 34 :: w2 ++ 58 :: w3 ++ t ++ w4, ?_, ?_⟩
                  · rw [hs, hsw2, hsw3, ht, hsw4, hd2]; simp
                  · intro w hw
                    have := Denotes.membersOne w key w2 w3 j t w4 hw hkey hw2 hw3 hden hw4
                    simpa [List.append_assoc] using this

/-! ## The parser accepts every text of the grammar -/

theorem skipWs_append_ws (w rest : List Nat) (hw : IsWs w) :
    skipWs (w ++ rest) = skipWs rest := by
  induction w with
  | nil => rfl
  | cons c w ih =>
    have hc : isWs c = true := hw c (List.mem_cons_self _ _)
    have := ih (fun x hx => hw x (List.mem_cons_of_mem _ hx))
    simp only [skipWs, List.cons_append, List.dropWhile_cons, hc, if_true] at this ⊢
    exact this

theorem skipWs_cons (c : Nat) (r : List Nat) (hc : isWs c = false) : skipWs (c :: r) = c :: r := by
  simp [skipWs, List.dropWhile_cons, hc]

theorem skipWs_ws_cons (w : List Nat) (c : Nat) (r : List Nat) (hw : IsWs w)
    (hc : isWs c = false) : skipWs (w ++ c :: r) = c :: r := by
  rw [skipWs_append_ws w _ hw, skipWs_cons c r hc]

theorem isNumber_head (t : List Nat) (h : IsNumber t) :
    ∃ c t', t = c :: t' ∧ (c = 45 ∨ isDigit c = true) := by
  obtain ⟨sgn, i, f, e, rfl, hs, hi, _, _⟩ := h
  rcases hs with rfl | rfl
  · obtain ⟨c, i', rfl, hc⟩ := isInt_head i hi
    exact ⟨c, i' ++ f ++ e, by simp, Or.inr hc⟩
  · exact ⟨45, i ++ f ++ e, by simp, Or.inl rfl⟩

theorem denotes_head (n : Node) (t : List Nat) (h : Denotes n t) :
    ∃ w c t', IsWs w ∧ t = w ++ c :: t' ∧ isWs c = false ∧ c ≠ 93 ∧ c ≠ 125 ∧ c ≠ 44 := by
  have nows : IsWs [] := fun c hc => absurd hc (List.not_mem_nil c)
  induction h with
  | null => exact ⟨[], 110, lit "ull", nows, by decide, by decide, by decide, by decide, by decide⟩
  | true => exact ⟨[], 116, lit "rue", nows, by decide, by decide, by decide, by decide, by decide⟩
  | false =>
    exact ⟨[], 102, lit "alse", nows, by decide, by decide, by decide, by decide, by decide⟩
  | number t hn =>
    obtain ⟨c, t', rfl, hc⟩ := isNumber_head t hn
    refine ⟨[], c, t', nows, rfl, ?_⟩
    rcases hc with rfl | hc
    · decide
    · simp only [isDigit, decide_eq_true_eq] at hc
      refine ⟨?_, by omega, by omega, by omega⟩
      simp only [isWs, decide_eq_false_iff_not]
      omega
  | str raw _ =>
    exact ⟨[], 34, raw ++ [34], nows, by simp, by decide, by decide, by decide, by decide⟩
  | arrEmpty w _ =>
    exact ⟨[], 91, w ++ [93], nows, by simp, by decide, by decide, by decide, by decide⟩
  | arr js t _ _ =>
    exact ⟨[], 91, t ++ [93], nows, by simp, by decide, by decide, by decide, by decide⟩
  | objEmpty w _ =>
    exact ⟨[], 123, w ++ [125], nows, by simp, by decide, by decide, by decide, by decide⟩
  | obj ms t _ _ =>
    exact ⟨[], 123, t ++ [125], nows, by simp, by decide, by decide, by decide, by decide⟩
  | elemsOne w1 j t w2 hw1 _ _ ih =>
    obtain ⟨w, c, t', hw, rfl, hc⟩ := ih
    refine ⟨w1 ++ w, c, t' ++ w2, ?_, by simp, hc⟩
    intro x hx
    rcases List.mem_append.mp hx with h | h
    · exact hw1 x h
    · exact hw x h
  | elemsCons w1 j t w2 js ts hw1 _ _ _ ih _ =>
    obtain ⟨w, c, t', hw, rfl, hc⟩ := ih
    refine ⟨w1 ++ w, c, t' ++ w2 ++ 44 :: ts, ?_, by simp, hc⟩
    intro x hx
    rcases List.mem_append.mp hx with h | h
    · exact hw1 x h
    · exact hw x h
  | membersOne w1 key w2 w3 j t w4 hw1 _ _ _ _ _ _ =>
    exact ⟨w1, 34, key ++ 34 :: w2 ++ 58 :: w3 ++ t ++ w4, hw1, by simp, by decide, by decide,
      by decide, by decide⟩
  | membersCons w1 key w2 w3 j t w4 ms ts hw1 _ _ _ _ _ _ _ _ =>
    exact ⟨w1, 34, key ++ 34 :: w2 ++ 58 :: w3 ++ t ++ w4 ++ 44 :: ts, hw1, by simp, by decide,
      by decide, by decide, by decide⟩

theorem isWs_not_numberTail (c : Nat) (h : isWs c = true) : isNumberTail c = false := by
  simp only [isWs, decide_eq_true_eq] at h
  rcases h with rfl | rfl | rfl | rfl <;> decide

theorem headNot_ws (w : List Nat) (hw : IsWs w) : HeadNot isNumberTail w := by
  intro c hc
  cases w with
  | nil => simp at hc
  | cons d w =>
    simp only [List.head?_cons, Option.mem_def, Option.some.injEq] at hc
    subst hc
    exact isWs_not_numberTail _ (hw _ (List.mem_cons_self _ _))

theorem headNot_ws_cons (w : List Nat) (c : Nat) (r : List Nat) (hw : IsWs w)
    (hc : isNumberTail c = false) : HeadNot isNumberTail (w ++ c :: r) := by
  intro x hx
  cases w with
  | nil =>
    simp only [List.nil_append, List.head?_cons, Option.mem_def, Option.some.injEq] at hx
    subst hx; exact hc
  | cons d w =>
    simp only [List.cons_append, List.head?_cons, Option.mem_def, Option.some.injEq] at hx
    subst hx
    exact isWs_not_numberTail _ (hw _ (List.mem_cons_self _ _))

theorem denotes_val_head (j : JSON) (t : List Nat) (h : Denotes (Node.val j) t) :
    ∃ c t', t = c :: t' ∧ isWs c = false := by
  cases h with
  | null => exact ⟨110, lit "ull", by decide, by decide⟩
  | true => exact ⟨116, lit "rue", by decide, by decide⟩
  | false => exact ⟨102, lit "alse", by decide, by decide⟩
  | number _ hn =>
    obtain ⟨c, t', rfl, hc⟩ := isNumber_head t hn
    refine ⟨c, t', rfl, ?_⟩
    rcases hc with rfl | hc
    · decide
    · simp only [isDigit, decide_eq_true_eq] at hc
      simp only [isWs, decide_eq_false_iff_not]
      omega
  | str raw _ => exact ⟨34, raw ++ [34], by simp, by decide⟩
  | arrEmpty w _ => exact ⟨91, w ++ [93], by simp, by decide⟩
  | arr js t _ => exact ⟨91, t ++ [93], by simp, by decide⟩
  | objEmpty w _ => exact ⟨123, w ++ [125], by simp, by decide⟩
  | obj ms t _ => exact ⟨123, t ++ [125], by simp, by decide⟩

theorem parse_complete (n : Node) (t : List Nat) (h : Denotes n t) :
    (∀ j, n = Node.val j → ∀ r fuel, HeadNot isNumberTail r → t.length ≤ fuel →
      parseValue fuel (t ++ r) = some (j, r)) ∧
    (∀ js, n = Node.elems js → ∀ r fuel, t.length + 1 ≤ fuel →
      parseElems fuel (skipWs (t ++ 93 :: r)) = some (js, r)) ∧
    (∀ ms, n = Node.members ms → ∀ r fuel, t.length + 1 ≤ fuel →
      parseMembers fuel (skipWs (t ++ 125 :: r)) = some (ms, r)) := by
  induction h with
  | null =>
    refine ⟨?_, (by intro _ h; cases h), (by intro _ h; cases h)⟩
    intro j hj r fuel _ hf
    cases hj
    have hl : lit "null" = [110, 117, 108, 108] := by decide
    rw [hl] at hf ⊢
    obtain ⟨f, rfl⟩ : ∃ f, fuel = f + 1 := ⟨fuel - 1, by simp at hf; omega⟩
    unfold parseValue
    have hp : HasPrefix (117 :: 108 :: 108 :: r) (lit "ull") = true :=
      (hasPrefix_iff _ _).mpr ⟨r, rfl⟩
    simp [hp]
  | true =>
    refine ⟨?_, (by intro _ h; cases h), (by intro _ h; cases h)⟩
    intro j hj r fuel _ hf
    cases hj
    have hl : lit "true" = [116, 114, 117, 101] := by decide
    rw [hl] at hf ⊢
    obtain ⟨f, rfl⟩ : ∃ f, fuel = f + 1 := ⟨fuel - 1, by simp at hf; omega⟩
    unfold parseValue
    have hp : HasPrefix (114 :: 117 :: 101 :: r) (lit "rue") = true :=
      (hasPrefix_iff _ _).mpr ⟨r, rfl⟩
    simp [hp]
  | false =>
    refine ⟨?_, (by intro _ h; cases h), (by intro _ h; cases h)⟩
    intro j hj r fuel _ hf
    cases hj
    have hl : lit "false" = [102, 97, 108, 115, 101] := by decide
    rw [hl] at hf ⊢
    obtain ⟨f, rfl⟩ : ∃ f, fuel = f + 1 := ⟨fuel - 1, by simp at hf; omega⟩
    unfold parseValue
    have hp : HasPrefix (97 :: 108 :: 115 :: 101 :: r) (lit "alse") = true :=
      (hasPrefix_iff _ _).mpr ⟨r, rfl⟩
    simp [hp]
  | number t hn =>
    refine ⟨?_, (by intro _ h; cases h), (by intro _ h; cases h)⟩
    intro j hj r fuel hr hf
    cases hj
    have hsc := scanNumber_complete t r hn hr
    obtain ⟨c, t', rfl, hc⟩ := isNumber_head t hn
    obtain ⟨f, rfl⟩ : ∃ f, fuel = f + 1 := ⟨fuel - 1, by simp at hf; omega⟩
    have hc' : c = 45 ∨ (48 ≤ c ∧ c ≤ 57) := by
      rcases hc with h | h
      · exact Or.inl h
      · simp only [isDigit, decide_eq_true_eq] at h; exact Or.inr h
    have h1 : c ≠ 123 := by omega
    have h2 : c ≠ 91 := by omega
    have h3 : c ≠ 34 := by omega
    have h4 : c ≠ 110 := by omega
    have h5 : c ≠ 116 := by omega
    have h6 : c ≠ 102 := by omega
    unfold parseValue
    simp only [List.cons_append] at hsc ⊢
    rw [if_neg h1, if_neg h2, if_neg h3, if_neg h4, if_neg h5, if_neg h6, if_pos hc, hsc]
    rfl
  | str raw hb =>
    refine ⟨?_, (by intro _ h; cases h), (by intro _ h; cases h)⟩
    intro j hj r fuel _ hf
    cases hj
    obtain ⟨f, rfl⟩ : ∃ f, fuel = f + 1 := ⟨fuel - 1, by simp at hf; omega⟩
    have := scanString_complete raw hb r
    unfold parseValue
    simp [this]
  | arrEmpty w hw =>
    refine ⟨?_, (by intro _ h; cases h), (by intro _ h; cases h)⟩
    intro j hj r fuel _ hf
    cases hj
    obtain ⟨f, rfl⟩ : ∃ f, fuel = f + 1 := ⟨fuel - 1, by simp at hf; omega⟩
    have := skipWs_ws_cons w 93 r hw (by decide)
    unfold parseValue
    simp [this]
  | objEmpty w hw =>
    refine ⟨?_, (by intro _ h; cases h), (by intro _ h; cases h)⟩
    intro j hj r fuel _ hf
    cases hj
    obtain ⟨f, rfl⟩ : ∃ f, fuel = f + 1 := ⟨fuel - 1, by simp at hf; omega⟩
    have := skipWs_ws_cons w 125 r hw (by decide)
    unfold parseValue
    simp [this]
  | arr js t hd ih =>
    refine ⟨?_, (by intro _ h; cases h), (by intro _ h; cases h)⟩
    intro j hj r fuel _ hf
    cases hj
    obtain ⟨f, rfl⟩ : ∃ f, fuel = f + 1 := ⟨fuel - 1, by simp at hf; omega⟩
    have hE := ih.2.1 js rfl r f (by simp at hf; omega)
    obtain ⟨w, c, t', hw, rfl, hc, h93, _, _⟩ := denotes_head _ _ hd
    have hsk : skipWs (w ++ c :: t' ++ 93 :: r) = c :: (t' ++ 93 :: r) := by
      rw [List.append_assoc]; exact skipWs_ws_cons w c _ hw hc
    rw [hsk] at hE
    unfold parseValue
    simp only [List.cons_append, List.append_assoc, List.singleton_append] at hsk ⊢
    simp [hsk, h93, hE]
  | obj ms t hd ih =>
    refine ⟨?_, (by intro _ h; cases h), (by intro _ h; cases h)⟩
    intro j hj r fuel _ hf
    cases hj
    obtain ⟨f, rfl⟩ : ∃ f, fuel = f + 1 := ⟨fuel - 1, by simp at hf; omega⟩
    have hE := ih.2.2 ms rfl r f (by simp at hf; omega)
    obtain ⟨w, c, t', hw, rfl, hc, _, h125, _⟩ := denotes_head _ _ hd
    have hsk : skipWs (w ++ c :: t' ++ 125 :: r) = c :: (t' ++ 125 :: r) := by
      rw [List.append_assoc]; exact skipWs_ws_cons w c _ hw hc
    rw [hsk] at hE
    unfold parseValue
    simp only [List.cons_append, List.append_assoc, List.singleton_append] at hsk ⊢
    simp [hsk, h125, hE]
  | elemsOne w1 j t w2 hw1 hd hw2 ih =>
    refine ⟨(by intro _ h; cases h), ?_, (by intro _ h; cases h)⟩
    intro js hjs r fuel hf
    cases hjs
    obtain ⟨f, rfl⟩ : ∃ f, fuel = f + 1 := ⟨fuel - 1, by omega⟩
    have hV := ih.1 j rfl (w2 ++ 93 :: r) f (headNot_ws_cons w2 93 r hw2 (by decide))
      (by simp at hf; omega)
    obtain ⟨c, t', rfl, hc⟩ := denotes_val_head _ _ hd
    have hsk : skipWs (w1 ++ c :: t' ++ w2 ++ 93 :: r) = c :: t' ++ (w2 ++ 93 :: r) := by
      simp only [List.append_assoc, List.cons_append]
      exact skipWs_ws_cons w1 c _ hw1 hc
    rw [hsk]
    unfold parseElems
    rw [hV]
    simp only
    rw [skipWs_ws_cons w2 93 r hw2 (by decide)]
    simp
  | elemsCons w1 j t w2 js ts hw1 hd hw2 hds ihv ihs =>
    refine ⟨(by intro _ h; cases h), ?_, (by intro _ h; cases h)⟩
    intro js' hjs r fuel hf
    cases hjs
    obtain ⟨f, rfl⟩ : ∃ f, fuel = f + 1 := ⟨fuel - 1, by omega⟩
    have hV := ihv.1 j rfl (w2 ++ 44 :: (ts ++ 93 :: r)) f
      (headNot_ws_cons w2 44 _ hw2 (by decide)) (by simp at hf; omega)
    have hE := ihs.2.1 js rfl r f (by simp at hf; omega)
    obtain ⟨c, t', rfl, hc⟩ := denotes_val_head _ _ hd
    have hsk : skipWs (w1 ++ c :: t' ++ w2 ++ 44 :: ts ++ 93 :: r)
        = c :: t' ++ (w2 ++ 44 :: (ts ++ 93 :: r)) := by
      simp only [List.append_assoc, List.cons_append]
      exact skipWs_ws_cons w1 c _ hw1 hc
    rw [hsk]
    unfold parseElems
    rw [hV]
    simp only
    rw [skipWs_ws_cons w2 44 _ hw2 (by decide)]
    simp [hE]
  | membersOne w1 key w2 w3 j t w4 hw1 hkey hw2 hw3 hd hw4 ih =>
    refine ⟨(by intro _ h; cases h), (by intro _ h; cases h), ?_⟩
    intro ms hms r fuel hf
    cases hms
    obtain ⟨f, rfl⟩ : ∃ f, fuel = f + 1 := ⟨fuel - 1, by omega⟩
    have hV := ih.1 j rfl (w4 ++ 125 :: r) f (headNot_ws_cons w4 125 r hw4 (by decide))
      (by simp at hf; omega)
    obtain ⟨c, t', rfl, hc⟩ := denotes_val_head _ _ hd
    have hsk : skipWs (w1 ++ 34 :: key ++ 34 :: w2 ++ 58 :: w3 ++ c :: t' ++ w4 ++ 125 :: r)
        = 34 :: (key ++ 34 :: (w2 ++ 58 :: (w3 ++ (c :: t' ++ (w4 ++ 125 :: r))))) := by
      simp only [List.append_assoc, List.cons_append]
      exact skipWs_ws_cons w1 34 _ hw1 (by decide)
    rw [hsk]
    unfold parseMembers
    simp only [if_true]
    rw [scanString_complete key hkey]
    simp only
    rw [skipWs_ws_cons w2 58 _ hw2 (by decide)]
    simp only [if_true]
    rw [show skipWs (w3 ++ (c :: t' ++ (w4 ++ 125 :: r))) = c :: t' ++ (w4 ++ 125 :: r) from
      skipWs_ws_cons w3 c _ hw3 hc, hV]
    simp only
    rw [skipWs_ws_cons w4 125 r hw4 (by decide)]
    simp
  | membersCons w1 key w2 w3 j t w4 ms ts hw1 hkey hw2 hw3 hd hw4 hds ihv ihs =>
    refine ⟨(by intro _ h; cases h), (by intro _ h; cases h), ?_⟩
    intro ms' hms r fuel hf
    cases hms
    obtain ⟨f, rfl⟩ : ∃ f, fuel = f + 1 := ⟨fuel - 1, by omega⟩
    have hV := ihv.1 j rfl (w4 ++ 44 :: (ts ++ 125 :: r)) f
      (headNot_ws_cons w4 44 _ hw4 (by decide)) (by simp at hf; omega)
    have hE := ihs.2.2 ms rfl r f (by simp at hf; omega)
    obtain ⟨c, t', rfl, hc⟩ := denotes_val_head _ _ hd
    have hsk : skipWs (w1 ++ 34 :: key ++ 34 :: w2 ++ 58 :: w3 ++ c :: t' ++ w4 ++ 44 :: ts
          ++ 125 :: r)
        = 34 :: (key ++ 34 :: (w2 ++ 58 :: (w3 ++ (c :: t' ++ (w4 ++ 44 :: (ts ++ 125 :: r)))))) := by
      simp only [List.append_assoc, List.cons_append]
      exact skipWs_ws_cons w1 34 _ hw1 (by decide)
    rw [hsk]
    unfold parseMembers
    simp only [if_true]
    rw [scanString_complete key hkey]
    simp only
    rw [skipWs_ws_cons w2 58 _ hw2 (by decide)]
    simp only [if_true]
    rw [show skipWs (w3 ++ (c :: t' ++ (w4 ++ 44 :: (ts ++ 125 :: r))))
        = c :: t' ++ (w4 ++ 44 :: (ts ++ 125 :: r)) from skipWs_ws_cons w3 c _ hw3 hc, hV]
    simp only
    rw [skipWs_ws_cons w4 44 _ hw4 (by decide)]
    simp [hE]

theorem skipWs_ws (w : List Nat) (hw : IsWs w) : skipWs w = [] := by
  have := skipWs_append_ws w [] hw
  simpa [skipWs] using this

theorem isWs_of_skipWs_nil (r : List Nat) (h : skipWs r = []) : IsWs r := by
  obtain ⟨w, hw, hr⟩ := skipWs_split r
  rw [h, List.append_nil] at hr
  rw [hr]; exact hw

theorem parseJSON_iff (data : GoString) (j : JSON) :
    parseJSON data = some j ↔ IsJSONText data j := by
  constructor
  · intro h
    unfold parseJSON at h
    rcases hv : parseValue (data.length + 1) (skipWs data) with _ | ⟨j', r⟩
    · rw [hv] at h; cases h
    · rw [hv] at h
      simp only at h
      split_ifs at h with hr
      cases h
      obtain ⟨t, ht, hden⟩ := (parse_sound _).1 _ _ _ hv
      obtain ⟨w1, hw1, hd⟩ := skipWs_split data
      refine ⟨w1, t, r, hw1, hden, isWs_of_skipWs_nil r hr, ?_⟩
      rw [List.append_assoc, ← ht]; exact hd
  · rintro ⟨w1, t, w2, hw1, hden, hw2, rfl⟩
    obtain ⟨c, t', rfl, hc⟩ := denotes_val_head _ _ hden
    have hsk : skipWs (w1 ++ c :: t' ++ w2) = c :: t' ++ w2 := by
      simp only [List.append_assoc, List.cons_append]
      exact skipWs_ws_cons w1 c _ hw1 hc
    have hV := (parse_complete _ _ hden).1 j rfl w2 ((w1 ++ c :: t' ++ w2).length + 1)
      (headNot_ws w2 hw2) (by simp; omega)
    unfold parseJSON
    rw [hsk, hV]
    simp [skipWs_ws w2 hw2]

/-! ## Decoding: unknown fields, absent fields, accepted values -/

theorem foldlM_except_cons {α β : Type} (f : α → β → Except GoError α) (a : α) (b : β)
    (l : List β) :
    (b :: l).foldlM f a = match f a b with
      | .ok a' => l.foldlM f a'
      | .error e => .error e := by
  simp only [List.foldlM_cons]
  cases f a b <;> rfl

theorem foldlM_except_append {α β : Type} (f : α → β → Except GoError α) (l1 l2 : List β)
    (a : α) :
    (l1 ++ l2).foldlM f a = match l1.foldlM f a with
      | .ok a' => l2.foldlM f a'
      | .error e => .error e := by
  induction l1 generalizing a with
  | nil => rfl
  | cons b l1 ih =>
    rw [List.cons_append, foldlM_except_cons, foldlM_except_cons]
    cases f a b with
    | error e => rfl
    | ok a' => exact ih a'

theorem decodeObject_unknown {α : Type} (fields : List (Field α))
    (ms1 ms2 : List (GoString × JSON)) (k : GoString) (v : JSON) (old : α)
    (hk : findField fields k = none) :
    decodeObject fields (JSON.obj (ms1 ++ (k, v) :: ms2)) old
      = decodeObject fields (JSON.obj (ms1 ++ ms2)) old := by
  simp only [decodeObject]
  rw [foldlM_except_append, foldlM_except_append]
  cases ms1.foldlM (decodeMember fields) old with
  | error e => rfl
  | ok a =>
    simp only
    rw [foldlM_except_cons]
    simp [decodeMember, hk]

theorem foldlM_accepts {α : Type} (fields : List (Field α))
    (hf : ∀ f ∈ fields, ∀ j old, f.accepts j = true → ∃ r, f.decode j old = .ok r)
    (ms : List (GoString × JSON))
    (hms : ∀ kv ∈ ms, ∀ f, findField fields kv.1 = some f → f.accepts kv.2 = true) (old : α) :
    ∃ r, ms.foldlM (decodeMember fields) old = .ok r := by
  induction ms generalizing old with
  | nil => exact ⟨old, rfl⟩
  | cons kv ms ih =>
    rw [foldlM_except_cons]
    have hrest := ih (fun x hx => hms x (List.mem_cons_of_mem _ hx))
    cases hfind : findField fields kv.1 with
    | none =>
      simp only [decodeMember, hfind]
      exact hrest old
    | some f =>
      have hmem : f ∈ fields := by
        unfold findField at hfind
        exact List.mem_of_find?_eq_some hfind
      obtain ⟨r, hr⟩ := hf f hmem kv.2 old (hms kv (List.mem_cons_self _ _) f hfind)
      simp only [decodeMember, hfind, hr]
      exact hrest r

theorem decodeObject_accepts {α : Type} (fields : List (Field α))
    (hf : ∀ f ∈ fields, ∀ j old, f.accepts j = true → ∃ r, f.decode j old = .ok r)
    (j : JSON) (old : α) (hj : acceptsObject fields j = true) :
    ∃ r, decodeObject fields j old = .ok r := by
  cases j with
  | obj ms =>
    simp only [decodeObject]
    apply foldlM_accepts fields hf
    intro kv hkv f hfind
    simp only [acceptsObject, List.all_eq_true] at hj
    have := hj kv hkv
    rw [hfind] at this
    exact this
  | null => exact ⟨old, rfl⟩
  | bool b => simp [acceptsObject] at hj
  | number t => simp [acceptsObject] at hj
  | str s => simp [acceptsObject] at hj
  | arr l => simp [acceptsObject] at hj

theorem decodeString_accepts (j : JSON) (old : GoString) (hj : acceptsString j = true) :
    ∃ r, decodeString j old = .ok r := by
  cases j with
  | str s => exact ⟨_, rfl⟩
  | null => exact ⟨old, rfl⟩
  | bool b => simp [acceptsString] at hj
  | number t => simp [acceptsString] at hj
  | obj ms => simp [acceptsString] at hj
  | arr l => simp [acceptsString] at hj

theorem mapM_except_ok {α β : Type} (f : α → Except GoError β) (l : List α)
    (h : ∀ a ∈ l, ∃ b, f a = .ok b) : ∃ bs, l.mapM f = .ok bs := by
  induction l with
  | nil => exact ⟨[], rfl⟩
  | cons a l ih =>
    obtain ⟨b, hb⟩ := h a (List.mem_cons_self _ _)
    obtain ⟨bs, hbs⟩ := ih (fun x hx => h x (List.mem_cons_of_mem _ hx))
    refine ⟨b :: bs, ?_⟩
    rw [List.mapM_cons, hb, hbs]
    rfl

theorem decodeSlice_accepts {α : Type} (zero : α) (elem : JSON → α → Except GoError α)
    (acc : JSON → Bool) (he : ∀ j old, acc j = true → ∃ r, elem j old = .ok r)
    (j : JSON) (hj : acceptsSlice acc j = true) :
    ∃ r, decodeSlice zero elem j = .ok r := by
  cases j with
  | arr items =>
    simp only [decodeSlice]
    apply mapM_except_ok
    intro a ha
    simp only [acceptsSlice, List.all_eq_true] at hj
    exact he a zero (hj a ha)
  | null => exact ⟨[], rfl⟩
  | bool b => simp [acceptsSlice] at hj
  | number t => simp [acceptsSlice] at hj
  | str s => simp [acceptsSlice] at hj
  | obj ms => simp [acceptsSlice] at hj

theorem map_ok_exists {α β : Type} (x : Except GoError α) (g : α → β) (h : ∃ r, x = .ok r) :
    ∃ r, x.map g = .ok r := by
  obtain ⟨r, rfl⟩ := h
  exact ⟨g r, rfl⟩

theorem partFields_ok : ∀ f ∈ partFields, ∀ j old, f.accepts j = true →
    ∃ r, f.decode j old = .ok r := by
  intro f hf j old hj
  simp only [partFields, List.mem_cons, List.mem_singleton, List.not_mem_nil, or_false] at hf
  rcases hf with rfl | rfl
  · exact map_ok_exists _ _ (decodeString_accepts j _ hj)
  · exact map_ok_exists _ _ (decodeString_accepts j _ hj)

theorem storeFields_ok : ∀ f ∈ storeFields, ∀ j old, f.accepts j = true →
    ∃ r, f.decode j old = .ok r := by
  intro f hf j old hj
  simp only [storeFields, List.mem_cons, List.mem_singleton, List.not_mem_nil, or_false] at hf
  rcases hf with rfl | rfl
  · exact map_ok_exists _ _ (decodeString_accepts j _ hj)
  · exact map_ok_exists _ _ (decodeSlice_accepts zeroPart _ _
      (fun j old h => decodeObject_accepts partFields partFields_ok j old h) j hj)

theorem pickupMessageFields_ok : ∀ f ∈ pickupMessageFields, ∀ j old, f.accepts j = true →
    ∃ r, f.decode j old = .ok r := by
  intro f hf j old hj
  simp only [pickupMessageFields, List.mem_singleton] at hf
  subst hf
  exact map_ok_exists _ _ (decodeSlice_accepts zeroStore _ _
    (fun j old h => decodeObject_accepts storeFields storeFields_ok j old h) j hj)

theorem contentFields_ok : ∀ f ∈ contentFields, ∀ j old, f.accepts j = true →
    ∃ r, f.decode j old = .ok r := by
  intro f hf j old hj
  simp only [contentFields, List.mem_singleton] at hf
  subst hf
  exact map_ok_exists _ _ (decodeObject_accepts _ pickupMessageFields_ok j _ hj)

theorem bodyFields_ok : ∀ f ∈ bodyFields, ∀ j old, f.accepts j = true →
    ∃ r, f.decode j old = .ok r := by
  intro f hf j old hj
  simp only [bodyFields, List.mem_singleton] at hf
  subst hf
  exact map_ok_exists _ _ (decodeObject_accepts _ contentFields_ok j _ hj)

theorem responseFields_ok : ∀ f ∈ responseFields, ∀ j old, f.accepts j = true →
    ∃ r, f.decode j old = .ok r := by
  intro f hf j old hj
  simp only [responseFields, List.mem_singleton] at hf
  subst hf
  exact map_ok_exists _ _ (decodeObject_accepts _ bodyFields_ok j _ hj)

theorem unmarshal_of_text (data : GoString) (j : JSON) (h : IsJSONText data j) :
    Unmarshal data = decodeObject responseFields j zeroResponse := by
  unfold Unmarshal
  rw [(parseJSON_iff data j).mpr h]

theorem unmarshal_not_text (data : GoString) (h : ¬ ∃ j, IsJSONText data j) :
    Unmarshal data = .error syntaxError := by
  unfold Unmarshal
  cases hp : parseJSON data with
  | none => rfl
  | some j => exact absurd ⟨j, (parseJSON_iff data j).mp hp⟩ h

theorem foldlM_invariant {α γ : Type} (fields : List (Field α)) (g : α → γ)
    (ms : List (GoString × JSON))
    (hstep : ∀ kv ∈ ms, ∀ acc r, decodeMember fields acc kv = .ok r → g r = g acc)
    (old st : α) (h : ms.foldlM (decodeMember fields) old = .ok st) : g st = g old := by
  induction ms generalizing old with
  | nil =>
    simp only [List.foldlM_nil] at h
    cases h; rfl
  | cons kv ms ih =>
    rw [foldlM_except_cons] at h
    cases hm : decodeMember fields old kv with
    | error e => rw [hm] at h; cases h
    | ok a =>
      rw [hm] at h
      simp only at h
      rw [ih (fun x hx => hstep x (List.mem_cons_of_mem _ hx)) a h]
      exact hstep kv (List.mem_cons_self _ _) old a hm

theorem decodeStore_missing_parts (ms : List (GoString × JSON))
    (hms : ∀ kv ∈ ms, foldName (unquote kv.1) ≠ foldName (lit "partsAvailability"))
    (old st : Store) (h : decodeObject storeFields (JSON.obj ms) old = .ok st) :
    st.PartsAvailability = old.PartsAvailability := by
  simp only [decodeObject] at h
  refine foldlM_invariant storeFields (fun s => s.PartsAvailability) ms ?_ old st h
  intro kv hkv acc r hr
  have hne := hms kv hkv
  simp only [decodeMember, findField, storeFields, List.find?] at hr
  by_cases h1 : (foldName (lit "storeName") == foldName (unquote kv.1)) = true
  · simp only [h1] at hr
    cases hd : decodeString kv.2 acc.StoreName with
    | error e => rw [hd] at hr; cases hr
    | ok s => rw [hd] at hr; cases hr; rfl
  · simp only [Bool.not_eq_true] at h1
    have h2 : (foldName (lit "partsAvailability") == foldName (unquote kv.1)) = false := by
      simp only [beq_eq_false_iff_ne, ne_eq]
      exact fun e => hne e.symm
    simp only [h1, h2] at hr
    cases hr; rfl

theorem decodePickupMessage_missing_stores (ms : List (GoString × JSON))
    (hms : ∀ kv ∈ ms, foldName (unquote kv.1) ≠ foldName (lit "stores"))
    (old m : PickupMessage) (h : decodeObject pickupMessageFields (JSON.obj ms) old = .ok m) :
    m.Stores = old.Stores := by
  simp only [decodeObject] at h
  refine foldlM_invariant pickupMessageFields (fun s => s.Stores) ms ?_ old m h
  intro kv hkv acc r hr
  have hne := hms kv hkv
  have h2 : (foldName (lit "stores") == foldName (unquote kv.1)) = false := by
    simp only [beq_eq_false_iff_ne, ne_eq]
    exact fun e => hne e.symm
  simp only [decodeMember, findField, pickupMessageFields, List.find?, h2] at hr
  cases hr; rfl

theorem unMarshalResp_result (u : GoString → Except GoError SearchResponse) (data : GoString) :
    (unMarshalResp u { Body := .ok data }).1 = u data := by
  simp only [unMarshalResp]
  cases u data <;> rfl

set_option maxRecDepth 100000 in
theorem unmarshal_empty_object : Unmarshal (lit "\x7b\x7d") = .ok zeroResponse := by rfl

set_option maxRecDepth 100000 in
theorem unmarshal_truncated : Unmarshal (lit "\x7b\"body\":\x7b\"content\":") = .error syntaxError := by
  rfl

set_option maxRecDepth 1000000 in
theorem unmarshal_demoBody :
    Unmarshal demoBody = .ok
      { Body := { Content := { PickupMessage := { Stores :=
        [{ StoreName := lit "Store5", PartsAvailability := [] },
         { StoreName := lit "Store6",
           PartsAvailability :=
            [{ StorePickupProductTitle := lit "iPhone 15",
               PickupSearchQuote := lit "Available, pick up today" }] }] } } } } := by
  rfl

set_option maxRecDepth 1000000 in
theorem demoBody_accepted :
    (parseJSON demoBody).map (acceptsObject responseFields) = some true := by
  rfl

/-! ## Fuel is sufficient -/

theorem decimal_foldl (s : GoString) (a : Nat) :
    s.foldl (fun acc d => 10 * acc + (d - 48)) a = a * 10 ^ s.length + decimalValue s := by
  unfold decimalValue
  induction s generalizing a with
  | nil => simp
  | cons d s ih =>
    simp only [List.foldl_cons, List.length_cons]
    rw [ih (10 * a + (d - 48)), ih (10 * 0 + (d - 48))]
    ring

theorem decimalValue_cons (d : Nat) (s : GoString) :
    decimalValue (d :: s) = (d - 48) * 10 ^ s.length + decimalValue s := by
  have := decimal_foldl s (10 * 0 + (d - 48))
  simp only [decimalValue, List.foldl_cons] at this ⊢
  rw [this]
  simp

theorem itoaLoop_value (fuel u : Nat) (acc : GoString) (hu : u < 10 ^ fuel) :
    decimalValue (itoaLoop fuel u acc) = u * 10 ^ acc.length + decimalValue acc := by
  induction fuel generalizing u acc with
  | zero =>
    have : u = 0 := by simpa using hu
    subst this
    simp [itoaLoop]
  | succ fuel ih =>
    unfold itoaLoop
    split
    · rw [ih]
      · rw [decimalValue_cons, List.length_cons, pow_succ]
        have := Nat.div_add_mod u 10
        have h2 : 48 + u % 10 - 48 = u % 10 := by omega
        rw [h2]
        calc u / 10 * (10 ^ acc.length * 10) + (u % 10 * 10 ^ acc.length + decimalValue acc)
            = (10 * (u / 10) + u % 10) * 10 ^ acc.length + decimalValue acc := by ring
          _ = u * 10 ^ acc.length + decimalValue acc := by rw [this]
      · rw [pow_succ] at hu
        exact Nat.div_lt_of_lt_mul (by omega)
    · rw [decimalValue_cons]
      have h2 : 48 + u - 48 = u := by omega
      rw [h2]

theorem itoa_value (i : Nat) : decimalValue (itoa i) = i := by
  unfold itoa
  rw [itoaLoop_value]
  · simp [decimalValue]
  · calc i < 10 ^ i := Nat.lt_pow_self (by norm_num) i
      _ ≤ 10 ^ (i + 1) := Nat.pow_le_pow_right (by norm_num) (by omega)

theorem itoa_injective (i j : Nat) (h : itoa i = itoa j) : i = j := by
  rw [← itoa_value i, ← itoa_value j, h]

theorem foldLoop_fuel (f1 : Nat) :
    ∀ (f2 : Nat) (s : GoString), s.length ≤ f1 → s.length ≤ f2 →
      foldLoop f1 s = foldLoop f2 s := by
  induction f1 with
  | zero =>
    intro f2 s h1 _
    have : s = [] := List.length_eq_zero.mp (by omega)
    subst this
    cases f2 <;> simp [foldLoop]
  | succ f1 ih =>
    intro f2 s h1 h2
    cases s with
    | nil => cases f2 <;> simp [foldLoop]
    | cons c r =>
      obtain ⟨g, rfl⟩ : ∃ g, f2 = g + 1 := ⟨f2 - 1, by simp at h2; omega⟩
      simp only [List.length_cons] at h1 h2
      simp only [foldLoop]
      rw [ih g r (by omega) (by omega), ih g (r.drop 2) (by simp; omega) (by simp; omega),
        ih g (r.drop 1) (by simp; omega) (by simp; omega)]

theorem foldName_fuel (s : GoString) (fuel : Nat) (h : s.length ≤ fuel) :
    foldLoop fuel s = foldName s :=
  foldLoop_fuel fuel s.length s h (le_refl _)

theorem unquoteLoop_fuel (f1 : Nat) :
    ∀ (f2 : Nat) (s : GoString), s.length ≤ f1 → s.length ≤ f2 →
      unquoteLoop f1 s = unquoteLoop f2 s := by
  induction f1 with
  | zero =>
    intro f2 s h1 _
    have : s = [] := List.length_eq_zero.mp (by omega)
    subst this
    cases f2 <;> simp [unquoteLoop]
  | succ f1 ih =>
    intro f2 s h1 h2
    cases s with
    | nil => cases f2 <;> simp [unquoteLoop]
    | cons c r =>
      obtain ⟨g, rfl⟩ : ∃ g, f2 = g + 1 := ⟨f2 - 1, by simp at h2; omega⟩
      simp only [List.length_cons] at h1 h2
      have e : ∀ x : GoString, x.length ≤ r.length → unquoteLoop f1 x = unquoteLoop g x :=
        fun x hx => ih g x (by omega) (by omega)
      simp only [unquoteLoop]
      by_cases h92 : c = 92
      · simp only [h92, if_true]
        cases r with
        | nil => rfl
        | cons e1 r1 =>
          simp only
          by_cases hu : e1 = 117
          · simp only [hu, if_true]
            match r1, e with
            | [], _ => rfl
            | [_], _ => rfl
            | [_, _], _ => rfl
            | [_, _, _], _ => rfl
            | h1 :: h2 :: h3 :: h4 :: r2, e =>
              simp only
              rw [e r2 (by simp; omega), e (r2.drop 6) (by simp; omega)]
          · simp only [hu, if_false]
            rw [e r1 (by simp)]
      · simp only [h92, if_false]
        rw [e r (le_refl _), e (r.drop (utf8Size (c :: r) - 1)) (by simp)]

theorem unquote_fuel (s : GoString) (fuel : Nat) (h : s.length ≤ fuel) :
    unquoteLoop fuel s = unquote s :=
  unquoteLoop_fuel fuel s.length s h (le_refl _)

/-! ## `sortStrings` sorts -/

theorem strLess_asymm (a : GoString) : ∀ b, strLess a b = true → strLess b a = false := by
  induction a with
  | nil => intro b _; cases b <;> rfl
  | cons x a ih =>
    intro b h
    cases b with
    | nil => simp [strLess] at h
    | cons y b =>
      simp only [strLess, Bool.or_eq_true, Bool.and_eq_true, decide_eq_true_eq] at h
      simp only [strLess, Bool.or_eq_false_iff, Bool.and_eq_false_iff, decide_eq_false_iff_not]
      rcases h with h | ⟨h1, h2⟩
      · exact ⟨by omega, Or.inl (by omega)⟩
      · exact ⟨by omega, Or.inr (ih b h2)⟩

theorem strLess_negtrans (a : GoString) :
    ∀ b c, strLess a c = true → strLess a b = true ∨ strLess b c = true := by
  induction a with
  | nil =>
    intro b c h
    cases c with
    | nil => simp [strLess] at h
    | cons z c =>
      cases b with
      | nil => exact Or.inr rfl
      | cons y b => exact Or.inl rfl
  | cons x a ih =>
    intro b c h
    cases c with
    | nil => simp [strLess] at h
    | cons z c =>
      cases b with
      | nil => exact Or.inr rfl
      | cons y b =>
        simp only [strLess, Bool.or_eq_true, Bool.and_eq_true, decide_eq_true_eq] at h ⊢
        rcases h with h | ⟨h1, h2⟩
        · by_cases hxy : x < y
          · exact Or.inl (Or.inl hxy)
          · exact Or.inr (Or.inl (by omega))
        · by_cases hxy : x < y
          · exact Or.inl (Or.inl hxy)
          · by_cases hyx : y < x
            · exact Or.inr (Or.inl (by omega))
            · have hxy' : x = y := by omega
              rcases ih b c h2 with h3 | h3
              · exact Or.inl (Or.inr ⟨hxy', h3⟩)
              · exact Or.inr (Or.inr ⟨by omega, h3⟩)

theorem strLe_trans (a b c : GoString) (h1 : strLess b a = false) (h2 : strLess c b = false) :
    strLess c a = false := by
  cases h : strLess c a with
  | false => rfl
  | true =>
    rcases strLess_negtrans c b a h with h3 | h3
    · rw [h2] at h3; cases h3
    · rw [h1] at h3; cases h3

theorem mem_insertSorted (x : GoString) (l : List GoString) (z : GoString) :
    z ∈ insertSorted x l ↔ z = x ∨ z ∈ l := by
  induction l with
  | nil => simp [insertSorted]
  | cons y ys ih =>
    unfold insertSorted
    split
    · simp only [List.mem_cons, ih]
      tauto
    · simp only [List.mem_cons]

theorem insertSorted_sorted (x : GoString) (l : List GoString)
    (h : l.Pairwise fun a b => strLess b a = false) :
    (insertSorted x l).Pairwise fun a b => strLess b a = false := by
  induction l with
  | nil => simp [insertSorted]
  | cons y ys ih =>
    rw [List.pairwise_cons] at h
    unfold insertSorted
    split
    · rename_i hyx
      rw [List.pairwise_cons]
      refine ⟨?_, ih h.2⟩
      intro z hz
      rcases (mem_insertSorted x ys z).mp hz with rfl | hz
      · exact strLess_asymm _ _ hyx
      · exact h.1 z hz
    · rename_i hyx
      simp only [Bool.not_eq_true] at hyx
      rw [List.pairwise_cons]
      refine ⟨?_, List.pairwise_cons.mpr h⟩
      intro z hz
      rcases List.mem_cons.mp hz with rfl | hz
      · exact hyx
      · exact strLe_trans x y z hyx (h.1 z hz)

theorem sortStrings_sorted (l : List GoString) :
    (sortStrings l).Pairwise fun a b => strLess b a = false := by
  induction l with
  | nil => simp [sortStrings]
  | cons x xs ih => exact insertSorted_sorted x _ ih

set_option maxRecDepth 100000 in
theorem makeUrl_demo :
    makeUrl demoCfg = lit ("https://www.apple.com/us-hed/shop/fulfillment-messages"
      ++ "?location=10001&mt=regular&parts.0=MODEL_A&pl=true") := by
  decide

theorem hasStockOffline_case_sensitive :
    hasStockOffline (lit "AVAILABLE NOW") = false ∧ hasStockOffline (lit "available now") = true
      ∧ hasStockOffline (lit "In stock") = false := by
  decide

/-! ## The URL of `makeUrl` is always accepted -/

theorem upperhex_safe (n : Nat) : isQuerySafe (upperhex n) = true := by
  unfold upperhex isQuerySafe
  split <;> simp <;> omega

theorem escapeByte_query_safe (c : Nat) :
    ∀ b ∈ escapeByte c encoding.encodeQueryComponent, isQuerySafe b = true := by
  intro b hb
  unfold escapeByte at hb
  split at hb
  · simp only [List.mem_singleton] at hb
    subst hb; decide
  · split at hb
    · simp only [List.mem_cons, List.mem_singleton, List.not_mem_nil, or_false] at hb
      rcases hb with h | h | h
      · subst h; decide
      · rw [h]; exact upperhex_safe _
      · rw [h]; exact upperhex_safe _
    · rename_i h2
      simp only [List.mem_singleton] at hb
      subst hb
      simp only [Bool.not_eq_true] at h2
      unfold shouldEscape at h2
      unfold isQuerySafe
      simp only [decide_eq_true_eq]
      split at h2
      · rename_i h; omega
      · split at h2
        · rename_i h; omega
        · split at h2
          · cases h2
          · cases h2

theorem queryEscape_safe (s : GoString) : ∀ b ∈ QueryEscape s, isQuerySafe b = true := by
  intro b hb
  simp only [QueryEscape, escape, List.mem_flatMap] at hb
  obtain ⟨c, _, hc⟩ := hb
  exact escapeByte_query_safe c b hc

theorem mem_intercalate_amp (ls : List GoString) (c : Nat)
    (hc : c ∈ [38].intercalate ls) : c = 38 ∨ ∃ l ∈ ls, c ∈ l := by
  induction ls with
  | nil => simp [List.intercalate] at hc
  | cons a ls ih =>
    cases ls with
    | nil =>
      simp only [List.intercalate, List.intersperse_single, List.flatten_cons, List.flatten_nil,
        List.append_nil] at hc
      exact Or.inr ⟨a, List.mem_cons_self _ _, hc⟩
    | cons b ls =>
      simp only [List.intercalate, List.intersperse_cons_cons, List.flatten_cons,
        List.mem_append, List.mem_singleton] at hc
      rcases hc with h | h | h
      · exact Or.inr ⟨a, List.mem_cons_self _ _, h⟩
      · exact Or.inl h
      · have : c ∈ [38].intercalate (b :: ls) := by
          simpa [List.intercalate] using h
        rcases ih this with h1 | ⟨l, hl, hcl⟩
        · exact Or.inl h1
        · exact Or.inr ⟨l, List.mem_cons_of_mem _ hl, hcl⟩

theorem encode_safe (v : Values) : ∀ c ∈ Values.Encode v, isQuerySafe c = true := by
  intro c hc
  rw [encode_eq_intercalate] at hc
  rcases mem_intercalate_amp _ c hc with rfl | ⟨l, hl, hcl⟩
  · decide
  · simp only [List.mem_flatMap, List.mem_map] at hl
    obtain ⟨k, _, x, _, rfl⟩ := hl
    simp only [List.mem_append, List.mem_singleton] at hcl
    rcases hcl with (h | h) | h
    · exact queryEscape_safe _ _ h
    · subst h; decide
    · exact queryEscape_safe _ _ h

theorem makeUrl_accepted (env : Env) (cfg : ConfigOption) (hlib : NewRequestContract env) :
    env.NewRequest (makeUrl cfg) = none :=
  hlib (Values.Encode (makeValues cfg)) (encode_safe _)

theorem ReqSearch_returns (env : Env) (cfg : ConfigOption) (hlib : NewRequestContract env) :
    (ReqSearch env cfg).outcome = Outcome.returned := by
  have hreq := makeUrl_accepted env cfg hlib
  simp only [ReqSearch, hreq]
  cases env.Do (makeUrl cfg) with
  | error err => rfl
  | ok resp =>
    simp only
    rcases unMarshalResp env.Unmarshal resp with ⟨r, t2⟩
    cases r <;> rfl

theorem Serve_runs (envs : Nat → Env) (cfg : ConfigOption)
    (hlib : ∀ k, NewRequestContract (envs k)) (n : Nat) :
    (Serve envs cfg n).outcome = Outcome.returned ∧
    (Serve envs cfg n).trace
      = ((List.range n).map fun k => (ReqSearch (envs k) cfg).trace).flatten := by
  induction n with
  | zero => exact ⟨rfl, rfl⟩
  | succ n ih =>
    simp only [Serve, ih.1, ih.2]
    refine ⟨ReqSearch_returns (envs n) cfg (hlib n), ?_⟩
    simp [List.range_succ]

/-- C8: the request for the URL of `makeUrl` is always built, so the fetch step
fails only by a transport error (a timeout included); whenever the fetch step
fails, neither the body is read nor the decoder called nor any notification
sent, and the cycle returns; whenever decoding fails, no notification is sent
and the cycle returns; every cycle returns, so `Serve` runs each of its turns
whatever failed in the turns before. -/
theorem ReqSearch_cycle_failures (env : Env) (cfg : ConfigOption)
    (hlib : NewRequestContract env) :
    env.NewRequest (makeUrl cfg) = none ∧
    ((env.NewRequest (makeUrl cfg) ≠ none ∨ ∃ err, env.Do (makeUrl cfg) = .error err) →
      Event.readAll ∉ (ReqSearch env cfg).trace ∧
      (∀ data, Event.jsonUnmarshal data ∉ (ReqSearch env cfg).trace) ∧
      getUrls (ReqSearch env cfg).trace = [] ∧
      (ReqSearch env cfg).outcome = Outcome.returned) ∧
    (∀ resp err, env.Do (makeUrl cfg) = .ok resp →
      (unMarshalResp env.Unmarshal resp).1 = .error err →
      getUrls (ReqSearch env cfg).trace = [] ∧
      (ReqSearch env cfg).outcome = Outcome.returned) ∧
    (ReqSearch env cfg).outcome = Outcome.returned ∧
    (∀ (envs : Nat → Env) (n : Nat), (∀ k, NewRequestContract (envs k)) →
      (Serve envs cfg n).outcome = Outcome.returned ∧
      (Serve envs cfg n).trace
        = ((List.range n).map fun k => (ReqSearch (envs k) cfg).trace).flatten) := by
  have hreq := makeUrl_accepted env cfg hlib
  refine ⟨hreq, ?_, ?_, ReqSearch_returns env cfg hlib,
    fun envs n h => Serve_runs envs cfg h n⟩
  · rintro (h | ⟨err, hdo⟩)
    · exact absurd hreq h
    · rw [ReqSearch_transport_failure env cfg err hreq hdo]
      refine ⟨?_, ?_, ?_, rfl⟩
      · simp
      · intro data; simp
      · simp [getUrls]
  · intro resp err hdo hparse
    obtain ⟨hrun, hget⟩ := ReqSearch_parse_failure env cfg resp err hreq hdo hparse
    exact ⟨hget, by rw [hrun]⟩

theorem demoEnvDown_contract : NewRequestContract demoEnvDown := fun _ _ => rfl

theorem demoEnvBadBody_contract : NewRequestContract demoEnvBadBody := fun _ _ => rfl

set_option maxRecDepth 100000 in
theorem demoEnvDown_run :
    ReqSearch demoEnvDown demoCfg =
      { trace :=
          [Event.log (lit "[I] 开始查询苹果接口. 查询位置:10001"),
            Event.newRequest (makeUrl demoCfg), Event.clientDo (some (makeUrl demoCfg)),
            Event.log (lit "[E] do request failed. url:" ++ makeUrl demoCfg
              ++ lit ", err:context deadline exceeded")],
        outcome := Outcome.returned } := by
  decide

set_option maxRecDepth 100000 in
theorem demoEnvBadBody_run :
    ReqSearch demoEnvBadBody demoCfg =
      { trace :=
          [Event.log (lit "[I] 开始查询苹果接口. 查询位置:10001"),
            Event.newRequest (makeUrl demoCfg), Event.clientDo (some (makeUrl demoCfg)),
            Event.readAll, Event.jsonUnmarshal (lit "(cut)"),
            Event.log (lit "[E] unmarshal body failed. data:(cut), err:unexpected end of JSON input"),
            Event.log (lit "[E] unMarshalResp failed. err:unexpected end of JSON input")],
        outcome := Outcome.returned } := by
  decide

theorem ReqSearch_cycle_failures_witness :
    NewRequestContract demoEnvDown ∧
    (∃ err, demoEnvDown.Do (makeUrl demoCfg) = .error err) ∧
    (Event.readAll ∉ (ReqSearch demoEnvDown demoCfg).trace ∧
      (∀ data, Event.jsonUnmarshal data ∉ (ReqSearch demoEnvDown demoCfg).trace) ∧
      getUrls (ReqSearch demoEnvDown demoCfg).trace = [] ∧
      (ReqSearch demoEnvDown demoCfg).outcome = Outcome.returned) ∧
    NewRequestContract demoEnvBadBody ∧
    (getUrls (ReqSearch demoEnvBadBody demoCfg).trace = [] ∧
      (ReqSearch demoEnvBadBody demoCfg).outcome = Outcome.returned) :=
  ⟨demoEnvDown_contract, ⟨_, rfl⟩,
    (ReqSearch_cycle_failures demoEnvDown demoCfg demoEnvDown_contract).2.1 (Or.inr ⟨_, rfl⟩),
    demoEnvBadBody_contract,
    (ReqSearch_cycle_failures demoEnvBadBody demoCfg demoEnvBadBody_contract).2.2.1
      { Body := .ok (lit "(cut)") } (lit "unexpected end of JSON input") rfl rfl⟩

/-! ## The decoder computes the response read by field paths -/

theorem field_cons_match (n : GoString) (kv : GoString × JSON) (ms : List (GoString × JSON))
    (h : keyIs n kv = true) : field (kv :: ms) n = some kv.2 := by
  simp [field, List.find?, h]

theorem field_cons_nomatch (n : GoString) (kv : GoString × JSON) (ms : List (GoString × JSON))
    (h : keyIs n kv = false) : field (kv :: ms) n = field ms n := by
  simp [field, List.find?, h]

theorem field_none (n : GoString) (ms : List (GoString × JSON))
    (h : ∀ x ∈ ms, keyIs n x = false) : field ms n = none := by
  induction ms with
  | nil => rfl
  | cons kv ms ih =>
    rw [field_cons_nomatch n kv ms (h kv (List.mem_cons_self _ _))]
    exact ih (fun x hx => h x (List.mem_cons_of_mem _ hx))

theorem fieldOk_of_none (n : GoString) (ok : JSON → Bool) (ms : List (GoString × JSON))
    (h : ∀ x ∈ ms, keyIs n x = false) : fieldOk ms n ok = true := by
  have hf : ms.filter (keyIs n) = [] := by
    rw [List.filter_eq_nil_iff]
    intro x hx
    simp [h x hx]
  simp only [fieldOk, hf, List.length_nil, Bool.and_eq_true, decide_eq_true_eq, List.all_eq_true]
  refine ⟨by omega, ?_⟩
  intro x hx
  simp [h x hx]

theorem fieldOk_cons_match (n : GoString) (ok : JSON → Bool) (kv : GoString × JSON)
    (ms : List (GoString × JSON)) (hk : keyIs n kv = true)
    (h : fieldOk (kv :: ms) n ok = true) :
    ok kv.2 = true ∧ ∀ x ∈ ms, keyIs n x = false := by
  simp only [fieldOk, List.filter_cons, hk, if_true, List.length_cons, Bool.and_eq_true,
    decide_eq_true_eq, List.all_cons, Bool.not_true, Bool.false_or] at h
  refine ⟨h.2.1, ?_⟩
  have hnil : ms.filter (keyIs n) = [] := List.length_eq_zero.mp (by omega)
  intro x hx
  rw [List.filter_eq_nil_iff] at hnil
  simpa using hnil x hx

theorem fieldOk_cons_nomatch (n : GoString) (ok : JSON → Bool) (kv : GoString × JSON)
    (ms : List (GoString × JSON)) (hk : keyIs n kv = false)
    (h : fieldOk (kv :: ms) n ok = true) : fieldOk ms n ok = true := by
  simp only [fieldOk, List.filter_cons, hk, Bool.false_eq_true, if_false, Bool.and_eq_true,
    decide_eq_true_eq, List.all_cons, Bool.not_false, Bool.true_or, true_and] at h
  simp only [fieldOk, Bool.and_eq_true, decide_eq_true_eq]
  exact h

theorem findField_two {α : Type} (f1 f2 : Field α) (kv : GoString × JSON) :
    findField [f1, f2] kv.1 =
      if keyIs f1.name kv = true then some f1
      else if keyIs f2.name kv = true then some f2 else none := by
  simp only [findField, keyIs, List.find?_cons, List.find?_nil]
  split <;> split <;> simp_all

theorem findField_one {α : Type} (f : Field α) (kv : GoString × JSON) :
    findField [f] kv.1 = if keyIs f.name kv = true then some f else none := by
  simp only [findField, keyIs, List.find?_cons, List.find?_nil]
  split <;> simp_all

theorem decode_one {α : Type} (f : Field α) (ok : JSON → Bool) (ap : Option JSON → α → α)
    (hd : ∀ v a, ok v = true → f.decode v a = .ok (ap (some v) a))
    (hn : ∀ a, ap none a = a)
    (ms : List (GoString × JSON)) (h : fieldOk ms f.name ok = true) (old : α) :
    ms.foldlM (decodeMember [f]) old = .ok (ap (field ms f.name) old) := by
  induction ms generalizing old with
  | nil => simp [field, hn]; rfl
  | cons kv ms ih =>
    rw [foldlM_except_cons]
    simp only [decodeMember, findField_one]
    cases hk : keyIs f.name kv with
    | true =>
      obtain ⟨hok, hrest⟩ := fieldOk_cons_match _ ok kv ms hk h
      simp only [if_true]
      rw [hd kv.2 old hok]
      simp only
      rw [ih (fieldOk_of_none _ ok ms hrest), field_none _ ms hrest, hn,
        field_cons_match _ kv ms hk]
    | false =>
      simp only [Bool.false_eq_true, if_false]
      rw [ih (fieldOk_cons_nomatch _ ok kv ms hk h), field_cons_nomatch _ kv ms hk]

theorem decode_two {α : Type} (f1 f2 : Field α) (ok1 ok2 : JSON → Bool)
    (ap1 ap2 : Option JSON → α → α)
    (hd1 : ∀ v a, ok1 v = true → f1.decode v a = .ok (ap1 (some v) a))
    (hd2 : ∀ v a, ok2 v = true → f2.decode v a = .ok (ap2 (some v) a))
    (hn1 : ∀ a, ap1 none a = a) (hn2 : ∀ a, ap2 none a = a)
    (hcomm : ∀ x y a, ap1 x (ap2 y a) = ap2 y (ap1 x a))
    (hne : foldName f1.name ≠ foldName f2.name)
    (ms : List (GoString × JSON)) (h1 : fieldOk ms f1.name ok1 = true)
    (h2 : fieldOk ms f2.name ok2 = true) (old : α) :
    ms.foldlM (decodeMember [f1, f2]) old
      = .ok (ap1 (field ms f1.name) (ap2 (field ms f2.name) old)) := by
  induction ms generalizing old with
  | nil => simp [field, hn1, hn2]; rfl
  | cons kv ms ih =>
    rw [foldlM_except_cons]
    simp only [decodeMember, findField_two]
    cases hk1 : keyIs f1.name kv with
    | true =>
      have hk2 : keyIs f2.name kv = false := by
        simp only [keyIs, beq_iff_eq] at hk1
        simp only [keyIs, beq_eq_false_iff_ne, ne_eq]
        intro e
        exact hne (hk1.trans e.symm)
      obtain ⟨hok, hrest⟩ := fieldOk_cons_match _ ok1 kv ms hk1 h1
      simp only [if_true]
      rw [hd1 kv.2 old hok]
      simp only
      rw [ih (fieldOk_of_none _ ok1 ms hrest) (fieldOk_cons_nomatch _ ok2 kv ms hk2 h2),
        field_none _ ms hrest, hn1, field_cons_match _ kv ms hk1,
        field_cons_nomatch _ kv ms hk2, hcomm]
    | false =>
      simp only [Bool.false_eq_true, if_false]
      cases hk2 : keyIs f2.name kv with
      | true =>
        obtain ⟨hok, hrest⟩ := fieldOk_cons_match _ ok2 kv ms hk2 h2
        simp only [if_true]
        rw [hd2 kv.2 old hok]
        simp only
        rw [ih (fieldOk_cons_nomatch _ ok1 kv ms hk1 h1) (fieldOk_of_none _ ok2 ms hrest),
          field_none _ ms hrest, hn2, field_cons_match _ kv ms hk2,
          field_cons_nomatch _ kv ms hk1]
      | false =>
        simp only [Bool.false_eq_true, if_false]
        rw [ih (fieldOk_cons_nomatch _ ok1 kv ms hk1 h1)
          (fieldOk_cons_nomatch _ ok2 kv ms hk2 h2), field_cons_nomatch _ kv ms hk1,
          field_cons_nomatch _ kv ms hk2]

theorem decodeObject_one {α : Type} (f : Field α) (ok : JSON → Bool)
    (ap : Option JSON → α → α)
    (hd : ∀ v a, ok v = true → f.decode v a = .ok (ap (some v) a))
    (hn : ∀ a, ap none a = a) (j : JSON) (h : shapedObject [(f.name, ok)] j = true) (old : α) :
    decodeObject [f] j old = .ok (ap (field (membersOf (some j)) f.name) old) := by
  cases j with
  | obj ms =>
    simp only [shapedObject, List.all_cons, List.all_nil, Bool.and_true] at h
    simp only [decodeObject, membersOf]
    exact decode_one f ok ap hd hn ms h old
  | null => simp [decodeObject, membersOf, field, hn]
  | bool b => simp [shapedObject] at h
  | number t => simp [shapedObject] at h
  | str s => simp [shapedObject] at h
  | arr l => simp [shapedObject] at h

theorem decodeObject_two {α : Type} (f1 f2 : Field α) (ok1 ok2 : JSON → Bool)
    (ap1 ap2 : Option JSON → α → α)
    (hd1 : ∀ v a, ok1 v = true → f1.decode v a = .ok (ap1 (some v) a))
    (hd2 : ∀ v a, ok2 v = true → f2.decode v a = .ok (ap2 (some v) a))
    (hn1 : ∀ a, ap1 none a = a) (hn2 : ∀ a, ap2 none a = a)
    (hcomm : ∀ x y a, ap1 x (ap2 y a) = ap2 y (ap1 x a))
    (hne : foldName f1.name ≠ foldName f2.name) (j : JSON)
    (h : shapedObject [(f1.name, ok1), (f2.name, ok2)] j = true) (old : α) :
    decodeObject [f1, f2] j old
      = .ok (ap1 (field (membersOf (some j)) f1.name)
          (ap2 (field (membersOf (some j)) f2.name) old)) := by
  cases j with
  | obj ms =>
    simp only [shapedObject, List.all_cons, List.all_nil, Bool.and_true, Bool.and_eq_true] at h
    simp only [decodeObject, membersOf]
    exact decode_two f1 f2 ok1 ok2 ap1 ap2 hd1 hd2 hn1 hn2 hcomm hne ms h.1 h.2 old
  | null => simp [decodeObject, membersOf, field, hn1, hn2]
  | bool b => simp [shapedObject] at h
  | number t => simp [shapedObject] at h
  | str s => simp [shapedObject] at h
  | arr l => simp [shapedObject] at h

theorem decodeString_strAp (v : JSON) (old : GoString) (h : acceptsString v = true) :
    decodeString v old = .ok (strAp (some v) old) := by
  cases v with
  | str s => rfl
  | null => rfl
  | bool b => simp [acceptsString] at h
  | number t => simp [acceptsString] at h
  | obj ms => simp [acceptsString] at h
  | arr l => simp [acceptsString] at h

theorem mapM_except_map {α β : Type} (f : α → Except GoError β) (g : α → β) (l : List α)
    (h : ∀ a ∈ l, f a = .ok (g a)) : l.mapM f = .ok (l.map g) := by
  induction l with
  | nil => rfl
  | cons a l ih =>
    rw [List.mapM_cons, h a (List.mem_cons_self _ _),
      ih (fun x hx => h x (List.mem_cons_of_mem _ hx))]
    rfl

theorem decodeSlice_items {α : Type} (zero : α) (elem : JSON → α → Except GoError α)
    (shaped : JSON → Bool) (g : JSON → α)
    (he : ∀ j, shaped j = true → elem j zero = .ok (g j))
    (v : JSON) (hv : acceptsSlice shaped v = true) :
    decodeSlice zero elem v = .ok ((itemsOf (some v)).map g) := by
  cases v with
  | arr items =>
    simp only [decodeSlice, itemsOf]
    apply mapM_except_map
    intro a ha
    simp only [acceptsSlice, List.all_eq_true] at hv
    exact he a (hv a ha)
  | null => rfl
  | bool b => simp [acceptsSlice] at hv
  | number t => simp [acceptsSlice] at hv
  | str s => simp [acceptsSlice] at hv
  | obj ms => simp [acceptsSlice] at hv

theorem decodePart_eq (j : JSON) (h : shapedPart j = true) :
    decodeObject partFields j zeroPart = .ok (partOf j) := by
  have := decodeObject_two (partFields.get ⟨0, by decide⟩) (partFields.get ⟨1, by decide⟩)
    acceptsString acceptsString apTitle apQuote
    (fun v a hv => by
      show (decodeString v a.StorePickupProductTitle).map _ = _
      rw [decodeString_strAp v _ hv]; rfl)
    (fun v a hv => by
      show (decodeString v a.PickupSearchQuote).map _ = _
      rw [decodeString_strAp v _ hv]; rfl)
    (fun a => rfl) (fun a => rfl) (fun x y a => rfl) (by decide) j h zeroPart
  exact this

theorem decodeStore_eq (j : JSON) (h : shapedStore j = true) :
    decodeObject storeFields j zeroStore = .ok (storeOf j) := by
  have := decodeObject_two (storeFields.get ⟨0, by decide⟩) (storeFields.get ⟨1, by decide⟩)
    acceptsString (acceptsSlice shapedPart) apStoreName apParts
    (fun v a hv => by
      show (decodeString v a.StoreName).map _ = _
      rw [decodeString_strAp v _ hv]; rfl)
    (fun v a hv => by
      show (decodeSlice zeroPart (decodeObject partFields) v).map _ = _
      rw [decodeSlice_items zeroPart _ shapedPart partOf decodePart_eq v hv]; rfl)
    (fun a => rfl) (fun a => rfl)
    (fun x y a => by cases y <;> rfl) (by decide) j h zeroStore
  refine this.trans ?_
  show Except.ok (apStoreName (field (membersOf (some j)) (lit "storeName"))
    (apParts (field (membersOf (some j)) (lit "partsAvailability")) zeroStore)) = _
  unfold storeOf
  cases field (membersOf (some j)) (lit "partsAvailability") <;> rfl

theorem decodePickupMessage_eq (j : JSON) (h : shapedPickupMessage j = true)
    (old : PickupMessage) :
    decodeObject pickupMessageFields j old
      = .ok (apStores (field (membersOf (some j)) (lit "stores")) old) :=
  decodeObject_one (pickupMessageFields.get ⟨0, by decide⟩) (acceptsSlice shapedStore) apStores
    (fun v a hv => by
      show (decodeSlice zeroStore (decodeObject storeFields) v).map _ = _
      rw [decodeSlice_items zeroStore _ shapedStore storeOf decodeStore_eq v hv]; rfl)
    (fun a => rfl) j h old

theorem decodeContent_eq (j : JSON) (h : shapedContent j = true) (old : Content) :
    decodeObject contentFields j old
      = .ok (apPickupMessage (field (membersOf (some j)) (lit "pickupMessage")) old) :=
  decodeObject_one (contentFields.get ⟨0, by decide⟩) shapedPickupMessage apPickupMessage
    (fun v a hv => by
      show (decodeObject pickupMessageFields v a.PickupMessage).map _ = _
      rw [decodePickupMessage_eq v hv]; rfl)
    (fun a => rfl) j h old

theorem decodeBody_eq (j : JSON) (h : shapedBody j = true) (old : Body) :
    decodeObject bodyFields j old
      = .ok (apContent (field (membersOf (some j)) (lit "content")) old) :=
  decodeObject_one (bodyFields.get ⟨0, by decide⟩) shapedContent apContent
    (fun v a hv => by
      show (decodeObject contentFields v a.Content).map _ = _
      rw [decodeContent_eq v hv]; rfl)
    (fun a => rfl) j h old

theorem decodeResponse_ap (j : JSON) (h : shapedResponse j = true) (old : SearchResponse) :
    decodeObject responseFields j old
      = .ok (apBody (field (membersOf (some j)) (lit "body")) old) :=
  decodeObject_one (responseFields.get ⟨0, by decide⟩) shapedBody apBody
    (fun v a hv => by
      show (decodeObject bodyFields v a.Body).map _ = _
      rw [decodeBody_eq v hv]; rfl)
    (fun a => rfl) j h old

theorem apBody_zero (j : JSON) :
    apBody (field (membersOf (some j)) (lit "body")) zeroResponse = responseOf j := by
  unfold responseOf storesOf
  cases field (membersOf (some j)) (lit "body") with
  | none => rfl
  | some v1 =>
    simp only [apBody]
    cases field (membersOf (some v1)) (lit "content") with
    | none => rfl
    | some v2 =>
      simp only [apContent]
      cases field (membersOf (some v2)) (lit "pickupMessage") with
      | none => rfl
      | some v3 =>
        simp only [apPickupMessage]
        cases field (membersOf (some v3)) (lit "stores") with
        | none => rfl
        | some v4 => rfl

theorem decodeResponse_eq (j : JSON) (h : shapedResponse j = true) :
    decodeObject responseFields j zeroResponse = .ok (responseOf j) := by
  rw [decodeResponse_ap j h, apBody_zero]

theorem field_unknown (ms1 ms2 : List (GoString × JSON)) (k : GoString) (v : JSON)
    (name : GoString) (hk : keyIs name (k, v) = false) :
    field (ms1 ++ (k, v) :: ms2) name = field (ms1 ++ ms2) name := by
  induction ms1 with
  | nil => exact field_cons_nomatch name (k, v) ms2 hk
  | cons kv ms1 ih =>
    simp only [List.cons_append]
    cases hm : keyIs name kv with
    | true => rw [field_cons_match _ _ _ hm, field_cons_match _ _ _ hm]
    | false => rw [field_cons_nomatch _ _ _ hm, field_cons_nomatch _ _ _ hm, ih]

theorem storeOf_missing_parts (ms : List (GoString × JSON))
    (h : ∀ kv ∈ ms, keyIs (lit "partsAvailability") kv = false) :
    (storeOf (JSON.obj ms)).PartsAvailability = [] := by
  simp only [storeOf, membersOf, field_none _ ms h, itemsOf, List.map_nil]

theorem storesOf_missing (j : JSON) (ms : List (GoString × JSON))
    (hpath : field (membersOf (field (membersOf (field (membersOf (some j)) (lit "body")))
      (lit "content"))) (lit "pickupMessage") = some (JSON.obj ms))
    (h : ∀ kv ∈ ms, keyIs (lit "stores") kv = false) :
    (responseOf j).Body.Content.PickupMessage.Stores = [] := by
  show (storesOf j).map storeOf = []
  unfold storesOf
  rw [hpath]
  show (itemsOf (field ms (lit "stores"))).map storeOf = []
  rw [field_none _ ms h]
  rfl

theorem storeOf_unknown (ms1 ms2 : List (GoString × JSON)) (k : GoString) (v : JSON)
    (h1 : keyIs (lit "storeName") (k, v) = false)
    (h2 : keyIs (lit "partsAvailability") (k, v) = false) :
    storeOf (JSON.obj (ms1 ++ (k, v) :: ms2)) = storeOf (JSON.obj (ms1 ++ ms2)) := by
  simp only [storeOf, membersOf, field_unknown ms1 ms2 k v _ h1, field_unknown ms1 ms2 k v _ h2]

theorem responseOf_unknown (ms1 ms2 : List (GoString × JSON)) (k : GoString) (v : JSON)
    (h : keyIs (lit "body") (k, v) = false) :
    responseOf (JSON.obj (ms1 ++ (k, v) :: ms2)) = responseOf (JSON.obj (ms1 ++ ms2)) := by
  simp only [responseOf, storesOf, membersOf, field_unknown ms1 ms2 k v _ h]

set_option maxRecDepth 1000000 in
theorem demoBody_reading :
    (parseJSON demoBody).map (fun j => (shapedResponse j, responseOf j)) = some (true,
      { Body := { Content := { PickupMessage := { Stores :=
        [{ StoreName := lit "Store5", PartsAvailability := [] },
         { StoreName := lit "Store6",
           PartsAvailability :=
            [{ StorePickupProductTitle := lit "iPhone 15",
               PickupSearchQuote := lit "Available, pick up today" }] }] } } } }) := by
  rfl

/-- C9: on the body `{}` `unMarshalResp` succeeds with an empty store list; on
a body that is not a JSON text (for one, a truncated one) it returns an error
and no response; on a JSON text of the expected shape, whatever unknown members
it has and whichever known members it lacks, it returns exactly the response
read off the text by field paths, in which a store without `partsAvailability`
has no records and a `pickupMessage` without `stores` gives no stores; unknown
members change neither that response nor the decoder's result. -/
theorem unMarshalResp_decoding :
    ((unMarshalResp Unmarshal { Body := .ok (lit "\x7b\x7d") }).1 = .ok zeroResponse ∧
      zeroResponse.Body.Content.PickupMessage.Stores = []) ∧
    (∀ data : GoString, (¬ ∃ j, IsJSONText data j) →
      (unMarshalResp Unmarshal { Body := .ok data }).1 = .error syntaxError) ∧
    (unMarshalResp Unmarshal { Body := .ok (lit "\x7b\"body\":\x7b\"content\":") }).1
      = .error syntaxError ∧
    (∀ (data : GoString) (j : JSON), IsJSONText data j → shapedResponse j = true →
      (unMarshalResp Unmarshal { Body := .ok data }).1 = .ok (responseOf j)) ∧
    (∀ (data : GoString) (j : JSON) (i : Nat) (ms : List (GoString × JSON)),
      IsJSONText data j → shapedResponse j = true →
      (storesOf j)[i]? = some (JSON.obj ms) →
      (∀ kv ∈ ms, keyIs (lit "partsAvailability") kv = false) →
      ∃ r st, (unMarshalResp Unmarshal { Body := .ok data }).1 = .ok r ∧
        r.Body.Content.PickupMessage.Stores[i]? = some st ∧ st.PartsAvailability = []) ∧
    (∀ (data : GoString) (j : JSON) (ms : List (GoString × JSON)),
      IsJSONText data j → shapedResponse j = true →
      field (membersOf (field (membersOf (field (membersOf (some j)) (lit "body")))
        (lit "content"))) (lit "pickupMessage") = some (JSON.obj ms) →
      (∀ kv ∈ ms, keyIs (lit "stores") kv = false) →
      ∃ r, (unMarshalResp Unmarshal { Body := .ok data }).1 = .ok r ∧
        r.Body.Content.PickupMessage.Stores = []) ∧
    (∀ (ms1 ms2 : List (GoString × JSON)) (k : GoString) (v : JSON),
      keyIs (lit "body") (k, v) = false →
      responseOf (JSON.obj (ms1 ++ (k, v) :: ms2)) = responseOf (JSON.obj (ms1 ++ ms2))) ∧
    (∀ (ms1 ms2 : List (GoString × JSON)) (k : GoString) (v : JSON),
      keyIs (lit "storeName") (k, v) = false →
      keyIs (lit "partsAvailability") (k, v) = false →
      storeOf (JSON.obj (ms1 ++ (k, v) :: ms2)) = storeOf (JSON.obj (ms1 ++ ms2))) ∧
    (unMarshalResp Unmarshal { Body := .ok demoBody }).1 = .ok
      { Body := { Content := { PickupMessage := { Stores :=
        [{ StoreName := lit "Store5", PartsAvailability := [] },
         { StoreName := lit "Store6",
           PartsAvailability :=
            [{ StorePickupProductTitle := lit "iPhone 15",
               PickupSearchQuote := lit "Available, pick up today" }] }] } } } } ∧
    (∀ (data : GoString) (j : JSON), IsJSONText data j →
      acceptsObject responseFields j = true →
      ∃ r, (unMarshalResp Unmarshal { Body := .ok data }).1 = .ok r) ∧
    (∀ (α : Type) (fields : List (Field α)) (ms1 ms2 : List (GoString × JSON)) (k : GoString)
      (v : JSON) (old : α), findField fields k = none →
      decodeObject fields (JSON.obj (ms1 ++ (k, v) :: ms2)) old
        = decodeObject fields (JSON.obj (ms1 ++ ms2)) old) ∧
    (∀ (ms : List (GoString × JSON)) (st : Store),
      (∀ kv ∈ ms, foldName (unquote kv.1) ≠ foldName (lit "partsAvailability")) →
      decodeObject storeFields (JSON.obj ms) zeroStore = .ok st → st.PartsAvailability = []) ∧
    (∀ (ms : List (GoString × JSON)) (m : PickupMessage),
      (∀ kv ∈ ms, foldName (unquote kv.1) ≠ foldName (lit "stores")) →
      decodeObject pickupMessageFields (JSON.obj ms) { Stores := [] } = .ok m →
      m.Stores = []) := by
  have hexact : ∀ (data : GoString) (j : JSON), IsJSONText data j → shapedResponse j = true →
      (unMarshalResp Unmarshal { Body := .ok data }).1 = .ok (responseOf j) := by
    intro data j ht hj
    rw [unMarshalResp_result, unmarshal_of_text data j ht]
    exact decodeResponse_eq j hj
  refine ⟨⟨?_, rfl⟩, ?_, ?_, hexact, ?_, ?_, ?_, ?_, ?_, ?_, ?_, ?_, ?_⟩
  · rw [unMarshalResp_result]; exact unmarshal_empty_object
  · intro data h
    rw [unMarshalResp_result]; exact unmarshal_not_text data h
  · rw [unMarshalResp_result]; exact unmarshal_truncated
  · intro data j i ms ht hj hi hms
    refine ⟨responseOf j, storeOf (JSON.obj ms), hexact data j ht hj, ?_,
      storeOf_missing_parts ms hms⟩
    show ((storesOf j).map storeOf)[i]? = _
    rw [List.getElem?_map, hi]
    rfl
  · intro data j ms ht hj hpath hms
    exact ⟨responseOf j, hexact data j ht hj, storesOf_missing j ms hpath hms⟩
  · intro ms1 ms2 k v h
    exact responseOf_unknown ms1 ms2 k v h
  · intro ms1 ms2 k v h1 h2
    exact storeOf_unknown ms1 ms2 k v h1 h2
  · rw [unMarshalResp_result]; exact unmarshal_demoBody
  · intro data j ht hj
    rw [unMarshalResp_result, unmarshal_of_text data j ht]
    exact decodeObject_accepts responseFields responseFields_ok j zeroResponse hj
  · intro α fields ms1 ms2 k v old hk
    exact decodeObject_unknown fields ms1 ms2 k v old hk
  · intro ms st hms h
    exact decodeStore_missing_parts ms hms zeroStore st h
  · intro ms m hms h
    exact decodePickupMessage_missing_stores ms hms { Stores := [] } m h

theorem unMarshalResp_decoding_witness :
    ∃ j, IsJSONText demoBody j ∧ shapedResponse j = true ∧
      (unMarshalResp Unmarshal { Body := .ok demoBody }).1 = .ok (responseOf j) ∧
      responseOf j =
        { Body := { Content := { PickupMessage := { Stores :=
          [{ StoreName := lit "Store5", PartsAvailability := [] },
           { StoreName := lit "Store6",
             PartsAvailability :=
              [{ StorePickupProductTitle := lit "iPhone 15",
                 PickupSearchQuote := lit "Available, pick up today" }] }] } } } } := by
  have h := demoBody_reading
  cases hp : parseJSON demoBody with
  | none => rw [hp] at h; cases h
  | some j =>
    rw [hp] at h
    simp only [Option.map_some', Option.some.injEq, Prod.mk.injEq] at h
    have ht := (parseJSON_iff demoBody j).mp hp
    exact ⟨j, ht, h.1, unMarshalResp_decoding.2.2.2.1 demoBody j ht h.1, h.2⟩

set_option maxRecDepth 1000000 in
theorem Serve_after_timeout :
    (Serve (fun k => if k = 0 then demoEnvDown else demoEnv) demoCfg 2).outcome
      = Outcome.returned ∧
    getUrls (Serve (fun k => if k = 0 then demoEnvDown else demoEnv) demoCfg 2).trace
      = [lit ("http://n.example/push/iPhone 15/取货时间:Available, pick up today"
          ++ " 地点:Store5?sound=minuet")] := by
  decide

end AppleStock
